import Mathlib

/-!
Verification of the core constraint/inference engine of a Wordle-style
solver: letter multisets (`Counter`), the feedback generator
(`get_feedback`), the dictionary reducer (`reduce_dict`), the feedback
decoder (`read_feedback`), and the expectation search
(`get_expect_remain_after`, `get_best_expect`).  Letters are embedded as
`Nat` (the source's `u8` codepoints; word letters are small so no
overflow is reachable), words as `List Nat`, and the source's `f32`
scores as exact rationals `ℚ`.  Fallible operations (`pop_one`, the
feedback decoder, the panicking `expect` in the feedback generator's
first pass) are embedded with `Option`.
-/

set_option maxHeartbeats 1000000

namespace WordleSolver

/-- Feedback on a letter can come in three forms: wrong letter (`Grey`),
right letter in wrong location (`Yellow`), correct letter and location
(`Green`). -/
inductive LettFb : Type
  | Grey
  | Yellow
  | Green
deriving DecidableEq, Repr

/-! ## Counter: the letter multiset, a `BTreeMap u8 u8` in the source.
The map is embedded as a key-sorted association list `List (Nat × Nat)`;
the operations below mirror `counter.rs` entry by entry. -/

/-- `BTreeMap::get` on the underlying entry list. -/
def lookupKey : List (Nat × Nat) → Nat → Option Nat
  | [], _ => none
  | (k', v) :: t, k => if k = k' then some v else lookupKey t k

/-- `*inner.entry(l).or_insert(0) += 1` on a key-sorted entry list. -/
def addKey : List (Nat × Nat) → Nat → List (Nat × Nat)
  | [], k => [(k, 1)]
  | (k', v) :: t, k =>
    if k < k' then (k, 1) :: (k', v) :: t
    else if k = k' then (k', v + 1) :: t
    else (k', v) :: addKey t k

/-- Decrement the value stored at key `k` (used by `pop_one` after the
checks have passed). -/
def popKey : List (Nat × Nat) → Nat → List (Nat × Nat)
  | [], _ => []
  | (k', v) :: t, k => if k = k' then (k', v - 1) :: t else (k', v) :: popKey t k

/-- `ops::BitAnd for Counter`: entries on the common keys, each with the
minimum of the two counts. -/
def interKey : List (Nat × Nat) → List (Nat × Nat) → List (Nat × Nat)
  | [], _ => []
  | (k, v) :: t, b =>
    match lookupKey b k with
    | some rv => (k, min v rv) :: interKey t b
    | none => interKey t b

/-- `ops::Sub for &Counter`: `v.checked_sub(rv)` keeps the entry with
`v - rv` when `rv ≤ v` and drops it otherwise; keys absent from the
right side are kept unchanged. -/
def subKey : List (Nat × Nat) → List (Nat × Nat) → List (Nat × Nat)
  | [], _ => []
  | (k, v) :: t, b =>
    match lookupKey b k with
    | some rv => if rv ≤ v then (k, v - rv) :: subKey t b else subKey t b
    | none => (k, v) :: subKey t b

/-- `Counter`, specialized to this task as in `counter.rs`. -/
structure Counter where
  inner : List (Nat × Nat)
deriving DecidableEq, Repr

def Counter.new : Counter := ⟨[]⟩

/-- `Counter::insert` / `Counter::add`: increment the count at a key. -/
def Counter.add (c : Counter) (k : Nat) : Counter := ⟨addKey c.inner k⟩

/-- `Counter::get`: the stored count, defaulting to 0. -/
def Counter.get (c : Counter) (k : Nat) : Nat := (lookupKey c.inner k).getD 0

/-- `Counter::contains_key`. -/
def Counter.contains_key (c : Counter) (k : Nat) : Bool :=
  (lookupKey c.inner k).isSome

/-- `Counter::is_empty`: `values().sum() == 0`. -/
def Counter.is_empty (c : Counter) : Bool :=
  decide ((c.inner.map Prod.snd).sum = 0)

/-- `Counter::keys`. -/
def Counter.keys (c : Counter) : List Nat := c.inner.map Prod.fst

/-- `Counter::pop_one`: fails (`Err`) when the key is absent or its
count is already 0, otherwise decrements it. -/
def Counter.pop_one (c : Counter) (k : Nat) : Option Counter :=
  match lookupKey c.inner k with
  | none => none
  | some v => if v < 1 then none else some ⟨popKey c.inner k⟩

/-- Multiset intersection (`secret_ctr & guess_ctr`). -/
def Counter.inter (c d : Counter) : Counter := ⟨interKey c.inner d.inner⟩

/-- Multiset subtraction (`&correct_lett_ctr - &w_ctr`). -/
def Counter.sub (c d : Counter) : Counter := ⟨subKey c.inner d.inner⟩

/-- `FromIterator<u8> for Counter`: count the letters of a word. -/
def Counter.ofList (w : List Nat) : Counter := w.foldl Counter.add Counter.new

/-- Well-formedness of a `BTreeMap` entry list: keys strictly ascending. -/
def SortedKeys (l : List (Nat × Nat)) : Prop :=
  l.Pairwise (fun a b => a.1 < b.1)

/-! ## Feedback generator (`get_feedback` in `main.rs`). -/

/-- The first (exact-match) pass: wherever `secret[i] == guess[i]`, mark
`Green` and `pop_one` that letter from the shared multiset; the
`.expect(...)` panic is embedded as `none`.  Untouched positions stay
`Grey`. -/
def firstPass : List Nat → List Nat → Counter → Option (List LettFb × Counter)
  | [], _, c => some ([], c)
  | _ :: _, [], c => some ([], c)
  | a :: s, b :: g, c =>
    if a = b then
      match c.pop_one a with
      | none => none
      | some c1 =>
        match firstPass s g c1 with
        | none => none
        | some (r, c2) => some (.Green :: r, c2)
    else
      match firstPass s g c with
      | none => none
      | some (r, c2) => some (.Grey :: r, c2)

/-- Mark up to `cnt` of the not-yet-`Green` positions of `guess` holding
`lett` as `Yellow`, in ascending index order (the source collects the
eligible indices and `take`s the first `cnt`). -/
def markYellow : List Nat → List LettFb → Nat → Nat → List LettFb
  | _, [], _, _ => []
  | [], r, _, _ => r
  | a :: g, f :: r, lett, cnt =>
    if cnt ≠ 0 ∧ a = lett ∧ f ≠ .Green then .Yellow :: markYellow g r lett (cnt - 1)
    else f :: markYellow g r lett cnt

/-- The second pass: for each `(lett, count)` entry remaining in the
shared multiset (ascending key order, as `BTreeMap::into_iter`), mark up
to `count` eligible positions `Yellow`. -/
def secondPass (g : List Nat) : List (Nat × Nat) → List LettFb → List LettFb
  | [], r => r
  | (lett, cnt) :: rest, r => secondPass g rest (markYellow g r lett cnt)

/-- `get_feedback`: intersect the letter multisets of secret and guess,
run the exact-match pass, then the present-elsewhere pass over the
remaining shared counts. -/
def get_feedback (secret guess : List Nat) : Option (List LettFb) :=
  let secret_ctr := Counter.ofList secret
  let guess_ctr := Counter.ofList guess
  let common_ctr := secret_ctr.inter guess_ctr
  match firstPass secret guess common_ctr with
  | none => none
  | some (r, c) => some (secondPass guess c.inner r)

/-! ## Dictionary reducer (`reduce_dict` in `main.rs`).
The source builds the four constraint structures in one indexed loop
over `guess.zip(feedback)`; they are embedded as one definition each
over the same enumerated list. -/

/-- Letters marked correctly (one count per `Yellow` and per `Green`
position). -/
def correct_lett_ctr (g : List Nat) (fb : List LettFb) : Counter :=
  (g.zip fb).foldl
    (fun c p =>
      match p.2 with
      | .Grey => c
      | .Yellow => c.add p.1
      | .Green => c.add p.1)
    Counter.new

/-- Indices and letters in the exact right location. -/
def exact_letts (g : List Nat) (fb : List LettFb) : List (Nat × Nat) :=
  (g.zip fb).enum.filterMap
    (fun p =>
      match p.2.2 with
      | .Green => some (p.1, p.2.1)
      | _ => none)

/-- Indices and letters marked as present in the wrong location. -/
def wrong_locs (g : List Nat) (fb : List LettFb) : List (Nat × Nat) :=
  (g.zip fb).enum.filterMap
    (fun p =>
      match p.2.2 with
      | .Yellow => some (p.1, p.2.1)
      | _ => none)

/-- `BTreeSet::insert` on a sorted duplicate-free list. -/
def insertSet : Nat → List Nat → List Nat
  | k, [] => [k]
  | k, a :: t => if k < a then k :: a :: t else if k = a then a :: t else a :: insertSet k t

/-- The set of letters appearing at any `Grey` position. -/
def marked_wrong_letts (g : List Nat) (fb : List LettFb) : List Nat :=
  (g.zip fb).foldl
    (fun s p =>
      match p.2 with
      | .Grey => insertSet p.1 s
      | _ => s)
    []

/-- Letters that aren't in the secret word: greyed letters that carry no
`Yellow`/`Green` count. -/
def wrong_letts (g : List Nat) (fb : List LettFb) : List Nat :=
  (marked_wrong_letts g fb).filter (fun l => !(correct_lett_ctr g fb).contains_key l)

/-- Upper bounds on the counts of specific letters (a letter duplicated
in the guess but not the secret). -/
def lett_limits (g : List Nat) (fb : List LettFb) : List (Nat × Nat) :=
  (correct_lett_ctr g fb).inner.filter (fun p => (marked_wrong_letts g fb).contains p.1)

/-- The per-word filter predicate of `reduce_dict`. -/
def survives (g : List Nat) (fb : List LettFb) (w : List Nat) : Bool :=
  let w_ctr := Counter.ofList w
  (exact_letts g fb).all (fun p => w.getD p.1 0 == p.2) &&
  !((w_ctr.keys).any (fun k => (wrong_letts g fb).contains k)) &&
  ((correct_lett_ctr g fb).sub w_ctr).is_empty &&
  !((wrong_locs g fb).any (fun p => w.getD p.1 0 == p.2)) &&
  (lett_limits g fb).all (fun p => decide (w_ctr.get p.1 ≤ p.2))

/-- `reduce_dict`: the words of the dictionary consistent with the
feedback for the guess. -/
def reduce_dict (dict : List (List Nat)) (guess : List Nat) (feedback : List LettFb) :
    List (List Nat) :=
  dict.filter (fun w => survives guess feedback w)

/-! ## Feedback decoder (`read_feedback` in `main.rs`). -/

/-- One character of a feedback string. -/
def decodeChar (c : Char) : Option LettFb :=
  if c = '-' then some .Grey
  else if c = '+' then some .Yellow
  else if c = '*' then some .Green
  else none

/-- `chars().map(...).collect::<Result<Vec<_>, _>>()`: short-circuits on
the first invalid character. -/
def decodeChars : List Char → Option (List LettFb)
  | [] => some []
  | c :: cs =>
    match decodeChar c, decodeChars cs with
    | some f, some r => some (f :: r)
    | _, _ => none

/-- `read_feedback::<5>`: decode every character, then the
`try_into` length check. -/
def read_feedback (s : List Char) : Option (List LettFb) :=
  match decodeChars s with
  | none => none
  | some r => if r.length = 5 then some r else none

/-! ## Expectation search (`get_expect_remain_after`, `get_best_expect`).
The source's `f32` arithmetic is embedded as exact rationals. -/

/-- `get_expect_remain_after`: for every dictionary word as hypothetical
secret, reduce the dictionary by the simulated feedback; average the
sizes, subtracting 1 from the summed total when the guess is itself a
dictionary member. -/
def get_expect_remain_after (dict : List (List Nat)) (guess : List Nat) : ℚ :=
  let n_remain : List Nat :=
    dict.map (fun w => (reduce_dict dict guess ((get_feedback w guess).getD [])).length)
  let norm : ℚ := 1 / (dict.length : ℚ)
  let sum_remain : ℚ := (n_remain.map (fun u => (u : ℚ))).sum
  norm * (if guess ∈ dict then sum_remain - 1 else sum_remain)

/-- Modelled from the spec: "the same mean computed without the
subtract-1 adjustment" — the comparison target of the Expectation Search
scenario, identical to `get_expect_remain_after` with the membership
bonus removed. -/
def expect_remain_no_bonus (dict : List (List Nat)) (guess : List Nat) : ℚ :=
  let n_remain : List Nat :=
    dict.map (fun w => (reduce_dict dict guess ((get_feedback w guess).getD [])).length)
  let norm : ℚ := 1 / (dict.length : ℚ)
  let sum_remain : ℚ := (n_remain.map (fun u => (u : ℚ))).sum
  norm * sum_remain

/-- Rust's `Iterator::min_by` on a non-empty list, split as head and
tail: fold keeping the newcomer only when strictly smaller, so the first
minimal element wins. -/
def minByFirst (x : ℚ × List Nat) (xs : List (ℚ × List Nat)) : ℚ × List Nat :=
  xs.foldl (fun acc y => if y.1 < acc.1 then y else acc) x

/-- `get_best_expect`: score every pool word against the dictionary,
zip scores with words, take the stable minimum by score; the source's
`unwrap` panic on an empty pool is embedded as `none`. -/
def get_best_expect (dict pool : List (List Nat)) : Option (List Nat × ℚ) :=
  let exp_lefts := pool.map (fun w => get_expect_remain_after dict w)
  match exp_lefts.zip pool with
  | [] => none
  | x :: xs => some ((minByFirst x xs).2, (minByFirst x xs).1)

/-! ## Spec-level survival conditions (the five clauses of §4.3, stated
over positions and letter counts, independently of `Counter`). -/

/-- The number of `Exact`/`PresentElsewhere` marks whose guess letter is
`l` (the spec's `correct_letter_counts` for `l`). -/
def specMarks (g : List Nat) (fb : List LettFb) (l : Nat) : Nat :=
  (g.zip fb).countP (fun p => decide (p.1 = l ∧ p.2 ≠ LettFb.Grey))

/-- Letter `l` appears at some `Absent` position of the guess. -/
def specGreyed (g : List Nat) (fb : List LettFb) (l : Nat) : Prop :=
  (l, LettFb.Grey) ∈ g.zip fb

/-- The spec's five survival conditions: exact positions match; no word
letter is in the final forbidden set; the word contains at least the
confirmed count of every marked letter; no present-elsewhere pair holds
at its own position; upper-bounded letters do not exceed their bound. -/
def specSurvives (g : List Nat) (fb : List LettFb) (w : List Nat) : Prop :=
  (∀ i, fb.getD i LettFb.Grey = LettFb.Green → w.getD i 0 = g.getD i 0) ∧
  (∀ l, l ∈ w → ¬(specGreyed g fb l ∧ specMarks g fb l = 0)) ∧
  (∀ l, specMarks g fb l ≤ w.count l) ∧
  (∀ i, fb.getD i LettFb.Grey = LettFb.Yellow → w.getD i 0 ≠ g.getD i 0) ∧
  (∀ l, 1 ≤ specMarks g fb l → specGreyed g fb l → w.count l ≤ specMarks g fb l)

/-! ## Counting helpers used to state and prove the feedback
properties. -/

/-- The number of positions where secret and guess agree and both hold
letter `l` (the exact matches for `l`). -/
def matchCount (s g : List Nat) (l : Nat) : Nat :=
  (s.zip g).countP (fun p => decide (p.1 = p.2 ∧ p.1 = l))

/-- The number of guess positions holding `l` that are marked
`Yellow`. -/
def yellowCount (g : List Nat) (fb : List LettFb) (l : Nat) : Nat :=
  (g.zip fb).countP (fun p => decide (p.1 = l ∧ p.2 = LettFb.Yellow))

/-- The number of guess positions holding `l` that are marked
`Green`. -/
def greenCount (g : List Nat) (fb : List LettFb) (l : Nat) : Nat :=
  (g.zip fb).countP (fun p => decide (p.1 = l ∧ p.2 = LettFb.Green))

/-- The number of guess positions holding `l` that are not marked
`Green` (the positions the second pass may mark `Yellow`). -/
def eligCount (g : List Nat) (fb : List LettFb) (l : Nat) : Nat :=
  (g.zip fb).countP (fun p => decide (p.1 = l ∧ p.2 ≠ LettFb.Green))

/-! ## Lemmas about `Counter` -/

theorem lookupKey_isSome_iff (l : List (Nat × Nat)) (k : Nat) :
    (lookupKey l k).isSome = true ↔ k ∈ l.map Prod.fst := by
  induction l with
  | nil => simp [lookupKey]
  | cons p t ih =>
    obtain ⟨k', v⟩ := p
    by_cases h : k = k' <;> simp [lookupKey, h, ih]

theorem lookupKey_eq_none_of_forall_lt {l : List (Nat × Nat)} {j : Nat}
    (h : ∀ p ∈ l, j < p.1) : lookupKey l j = none := by
  induction l with
  | nil => rfl
  | cons p t ih =>
    obtain ⟨k', v⟩ := p
    have hj : j ≠ k' := Nat.ne_of_lt (h (k', v) (by simp))
    simp only [lookupKey, if_neg hj]
    exact ih (fun q hq => h q (List.mem_cons_of_mem _ hq))

theorem mem_of_lookupKey_eq_some {l : List (Nat × Nat)} {k v : Nat}
    (h : lookupKey l k = some v) : (k, v) ∈ l := by
  induction l with
  | nil => simp [lookupKey] at h
  | cons p t ih =>
    obtain ⟨k', v'⟩ := p
    by_cases hk : k = k'
    · simp only [lookupKey, if_pos hk] at h
      subst hk
      simp [← Option.some_inj.mp h]
    · simp only [lookupKey, if_neg hk] at h
      exact List.mem_cons_of_mem _ (ih h)

theorem mem_map_fst_addKey (l : List (Nat × Nat)) (k x : Nat) :
    x ∈ (addKey l k).map Prod.fst ↔ x ∈ l.map Prod.fst ∨ x = k := by
  induction l with
  | nil => simp [addKey, eq_comm]
  | cons p t ih =>
    obtain ⟨k', v⟩ := p
    by_cases h1 : k < k'
    · simp [addKey, if_pos h1, eq_comm]
      tauto
    · by_cases h2 : k = k'
      · subst h2
        simp [addKey, if_neg h1]
        tauto
      · simp [addKey, if_neg h1, if_neg h2, ih]
        tauto

theorem sortedKeys_addKey {l : List (Nat × Nat)} (h : SortedKeys l) (k : Nat) :
    SortedKeys (addKey l k) := by
  induction l with
  | nil => simp [addKey, SortedKeys]
  | cons p t ih =>
    obtain ⟨k', v⟩ := p
    rw [SortedKeys, List.pairwise_cons] at h
    obtain ⟨hhead, htail⟩ := h
    by_cases h1 : k < k'
    · rw [SortedKeys]
      simp only [addKey, if_pos h1]
      rw [List.pairwise_cons]
      constructor
      · intro p hp
        rcases List.mem_cons.mp hp with rfl | hp'
        · exact h1
        · exact Nat.lt_trans h1 (hhead p hp')
      · rw [List.pairwise_cons]
        exact ⟨hhead, htail⟩
    · by_cases h2 : k = k'
      · subst h2
        have he : addKey ((k, v) :: t) k = (k, v + 1) :: t := by
          simp [addKey, h1]
        rw [SortedKeys, he, List.pairwise_cons]
        exact ⟨hhead, htail⟩
      · rw [SortedKeys]
        simp only [addKey, if_neg h1, if_neg h2]
        rw [List.pairwise_cons]
        constructor
        · intro p hp
          have hx := (List.mem_map.mp (by exact List.mem_map_of_mem Prod.fst hp))
          have : p.1 ∈ (addKey t k).map Prod.fst := List.mem_map_of_mem Prod.fst hp
          rcases (mem_map_fst_addKey t k p.1).mp this with hm | rfl
          · obtain ⟨q, hq, hq1⟩ := List.mem_map.mp hm
            have := hhead q hq
            omega
          · omega
        · exact ih htail

theorem lookupKey_addKey {l : List (Nat × Nat)} (h : SortedKeys l) (k j : Nat) :
    lookupKey (addKey l k) j =
      if j = k then some ((lookupKey l k).getD 0 + 1) else lookupKey l j := by
  induction l with
  | nil =>
    by_cases hj : j = k <;> simp [addKey, lookupKey, hj]
  | cons p t ih =>
    obtain ⟨k', v⟩ := p
    rw [SortedKeys, List.pairwise_cons] at h
    obtain ⟨hhead, htail⟩ := h
    by_cases h1 : k < k'
    · by_cases hj : j = k
      · subst hj
        have hj' : j ≠ k' := Nat.ne_of_lt h1
        have hnt : lookupKey t j = none :=
          lookupKey_eq_none_of_forall_lt (fun q hq => Nat.lt_trans h1 (hhead q hq))
        simp [addKey, if_pos h1, lookupKey, hj', hnt]
      · simp [addKey, if_pos h1, lookupKey, hj]
    · by_cases h2 : k = k'
      · subst h2
        by_cases hj : j = k
        · subst hj
          simp [addKey, if_neg h1, lookupKey]
        · simp [addKey, if_neg h1, lookupKey, hj]
      · by_cases hj : j = k
        · subst hj
          have hjk' : j ≠ k' := h2
          simp [addKey, if_neg h1, if_neg h2, lookupKey, hjk', ih htail]
        · by_cases hj' : j = k'
          · subst hj'
            simp [addKey, if_neg h1, if_neg h2, lookupKey, hj]
          · simp [addKey, if_neg h1, if_neg h2, lookupKey, hj', ih htail, hj]

theorem get_add {c : Counter} (h : SortedKeys c.inner) (k j : Nat) :
    (c.add k).get j = c.get j + (if j = k then 1 else 0) := by
  unfold Counter.get Counter.add
  rw [lookupKey_addKey h]
  by_cases hj : j = k <;> simp [hj]

theorem mem_map_fst_addKey_values {l : List (Nat × Nat)} {k : Nat}
    (hpos : ∀ p ∈ l, 1 ≤ p.2) : ∀ p ∈ addKey l k, 1 ≤ p.2 := by
  induction l with
  | nil => simp [addKey]
  | cons q t ih =>
    obtain ⟨k', v⟩ := q
    intro p hp
    by_cases h1 : k < k'
    · simp only [addKey, if_pos h1] at hp
      rcases List.mem_cons.mp hp with rfl | hp'
      · simp
      · exact hpos p hp'
    · by_cases h2 : k = k'
      · subst h2
        simp only [addKey, if_neg h1, if_pos rfl] at hp
        rcases List.mem_cons.mp hp with rfl | hp'
        · simp
        · exact hpos p (List.mem_cons_of_mem _ hp')
      · simp only [addKey, if_neg h1, if_neg h2] at hp
        rcases List.mem_cons.mp hp with rfl | hp'
        · exact hpos _ (by simp)
        · exact ih (fun q hq => hpos q (List.mem_cons_of_mem _ hq)) p hp'

/-- Every counter built by folding `Counter.add` over a list, starting
from a well-formed counter, stays well-formed. -/
theorem sortedKeys_foldl_add {w : List Nat} {c : Counter} (h : SortedKeys c.inner) :
    SortedKeys (w.foldl Counter.add c).inner := by
  induction w generalizing c with
  | nil => exact h
  | cons a w ih => exact ih (sortedKeys_addKey h a)

theorem sortedKeys_ofList (w : List Nat) : SortedKeys (Counter.ofList w).inner :=
  sortedKeys_foldl_add (by simp [Counter.new, SortedKeys])

theorem valuesPos_foldl_add {w : List Nat} {c : Counter}
    (h : ∀ p ∈ c.inner, 1 ≤ p.2) : ∀ p ∈ (w.foldl Counter.add c).inner, 1 ≤ p.2 := by
  induction w generalizing c with
  | nil => exact h
  | cons a w ih => exact ih (mem_map_fst_addKey_values h)

theorem valuesPos_ofList (w : List Nat) : ∀ p ∈ (Counter.ofList w).inner, 1 ≤ p.2 :=
  valuesPos_foldl_add (by simp [Counter.new])

theorem get_foldl_add {w : List Nat} {c : Counter} (h : SortedKeys c.inner) (l : Nat) :
    (w.foldl Counter.add c).get l = c.get l + w.count l := by
  induction w generalizing c with
  | nil => simp
  | cons a w ih =>
    simp only [List.foldl_cons]
    rw [ih (c := c.add a) (sortedKeys_addKey h a), get_add h, List.count_cons]
    by_cases ha : a = l
    · subst ha
      simp
      omega
    · have : ¬ (l = a) := fun hc => ha hc.symm
      simp [this, ha]

/-- The `FromIterator` counter of a word stores exactly the letter
counts of that word. -/
theorem get_ofList (w : List Nat) (l : Nat) : (Counter.ofList w).get l = w.count l := by
  have := get_foldl_add (w := w) (c := Counter.new)
    (by simp [Counter.new, SortedKeys]) l
  simpa [Counter.new, Counter.get, lookupKey] using this

theorem contains_key_iff_mem {c : Counter} (k : Nat) :
    c.contains_key k = true ↔ k ∈ c.inner.map Prod.fst := by
  rw [Counter.contains_key, lookupKey_isSome_iff]

theorem contains_key_iff_get_pos {c : Counter} (hpos : ∀ p ∈ c.inner, 1 ≤ p.2)
    (k : Nat) : c.contains_key k = true ↔ 1 ≤ c.get k := by
  constructor
  · intro h
    rw [Counter.contains_key, Option.isSome_iff_exists] at h
    obtain ⟨v, hv⟩ := h
    have := hpos _ (mem_of_lookupKey_eq_some hv)
    simp only [Counter.get, hv, Option.getD_some]
    exact this
  · intro h
    rw [Counter.contains_key, Option.isSome_iff_exists]
    rcases hv : lookupKey c.inner k with _ | v
    · rw [Counter.get, hv] at h
      simp at h
    · exact ⟨v, rfl⟩

/-- Letters of `w` are exactly the keys of its counter. -/
theorem mem_keys_ofList (w : List Nat) (k : Nat) :
    k ∈ (Counter.ofList w).keys ↔ k ∈ w := by
  rw [Counter.keys, ← lookupKey_isSome_iff]
  constructor
  · intro h
    rw [Option.isSome_iff_exists] at h
    obtain ⟨v, hv⟩ := h
    have hpos := valuesPos_ofList w _ (mem_of_lookupKey_eq_some hv)
    have : 1 ≤ (Counter.ofList w).get k := by
      simp only [Counter.get, hv, Option.getD_some]; exact hpos
    rw [get_ofList] at this
    exact List.count_pos_iff.mp this
  · intro h
    have : 1 ≤ (Counter.ofList w).get k := by
      rw [get_ofList]
      exact List.count_pos_iff.mpr h
    rcases hv : lookupKey (Counter.ofList w).inner k with _ | v
    · rw [Counter.get, hv] at this
      simp at this
    · simp

theorem mem_map_fst_interKey {a b : List (Nat × Nat)} {x : Nat}
    (h : x ∈ (interKey a b).map Prod.fst) : x ∈ a.map Prod.fst := by
  induction a with
  | nil => simp [interKey] at h
  | cons p t ih =>
    obtain ⟨k, v⟩ := p
    rcases hb : lookupKey b k with _ | rv
    · simp only [interKey, hb] at h
      exact List.mem_cons_of_mem _ (ih h)
    · simp only [interKey, hb, List.map_cons, List.mem_cons] at h
      rcases h with rfl | h'
      · simp
      · simp only [List.map_cons, List.mem_cons]
        exact Or.inr (ih h')

theorem sortedKeys_interKey {a : List (Nat × Nat)} (ha : SortedKeys a)
    (b : List (Nat × Nat)) : SortedKeys (interKey a b) := by
  induction a with
  | nil => simp [interKey, SortedKeys]
  | cons p t ih =>
    obtain ⟨k, v⟩ := p
    rw [SortedKeys, List.pairwise_cons] at ha
    obtain ⟨hhead, htail⟩ := ha
    rcases hb : lookupKey b k with _ | rv
    · simp only [interKey, hb]
      exact ih htail
    · rw [SortedKeys]
      simp only [interKey, hb]
      rw [List.pairwise_cons]
      constructor
      · intro q hq
        have : q.1 ∈ (interKey t b).map Prod.fst := List.mem_map_of_mem Prod.fst hq
        obtain ⟨r, hr, hr1⟩ := List.mem_map.mp (mem_map_fst_interKey this)
        have := hhead r hr
        omega
      · exact ih htail

theorem lookupKey_interKey_getD {a : List (Nat × Nat)} (ha : SortedKeys a)
    (b : List (Nat × Nat)) (k : Nat) :
    (lookupKey (interKey a b) k).getD 0 =
      min ((lookupKey a k).getD 0) ((lookupKey b k).getD 0) := by
  induction a with
  | nil => simp [interKey, lookupKey]
  | cons p t ih =>
    obtain ⟨k', v⟩ := p
    rw [SortedKeys, List.pairwise_cons] at ha
    obtain ⟨hhead, htail⟩ := ha
    have hknt : lookupKey t k' = none := by
      apply lookupKey_eq_none_of_forall_lt
      intro q hq
      exact hhead q hq
    rcases hb : lookupKey b k' with _ | rv
    · simp only [interKey, hb]
      by_cases hk : k = k'
      · subst hk
        have : lookupKey (interKey t b) k = none := by
          rcases hi : lookupKey (interKey t b) k with _ | u
          · rfl
          · exfalso
            have : k ∈ (interKey t b).map Prod.fst := by
              rw [← lookupKey_isSome_iff, hi]
              rfl
            have hmem := mem_map_fst_interKey this
            rw [← lookupKey_isSome_iff, hknt] at hmem
            simp at hmem
        rw [this]
        simp [lookupKey, hb]
      · simp only [lookupKey, if_neg hk]
        exact ih htail
    · by_cases hk : k = k'
      · subst hk
        simp only [interKey, hb, lookupKey, if_pos rfl]
        simp
      · simp only [interKey, hb, lookupKey, if_neg hk]
        exact ih htail

/-- The intersection counter stores, for every letter, the minimum of
the two counts. -/
theorem get_inter {c : Counter} (hc : SortedKeys c.inner) (d : Counter) (k : Nat) :
    (c.inter d).get k = min (c.get k) (d.get k) :=
  lookupKey_interKey_getD hc d.inner k

theorem sum_subKey_eq_zero_iff {a : List (Nat × Nat)} (ha : SortedKeys a)
    (b : List (Nat × Nat)) :
    ((subKey a b).map Prod.snd).sum = 0 ↔
      ∀ l, (lookupKey a l).getD 0 ≤ (lookupKey b l).getD 0 := by
  induction a with
  | nil => simp [subKey, lookupKey]
  | cons p t ih =>
    obtain ⟨k, v⟩ := p
    rw [SortedKeys, List.pairwise_cons] at ha
    obtain ⟨hhead, htail⟩ := ha
    have hknt : lookupKey t k = none :=
      lookupKey_eq_none_of_forall_lt (fun q hq => hhead q hq)
    have hsplit :
        (∀ l, (lookupKey ((k, v) :: t) l).getD 0 ≤ (lookupKey b l).getD 0) ↔
          (v ≤ (lookupKey b k).getD 0 ∧
            ∀ l, (lookupKey t l).getD 0 ≤ (lookupKey b l).getD 0) := by
      constructor
      · intro h
        constructor
        · have := h k
          simpa [lookupKey] using this
        · intro l
          by_cases hl : l = k
          · subst hl
            simp [hknt]
          · have := h l
            simpa [lookupKey, hl] using this
      · intro h l
        by_cases hl : l = k
        · subst hl
          simpa [lookupKey] using h.1
        · have := h.2 l
          simpa [lookupKey, hl] using this
    rcases hb : lookupKey b k with _ | rv
    · simp only [subKey, hb, List.map_cons, List.sum_cons]
      rw [hsplit, ← ih htail, hb]
      simp only [Option.getD_none]
      omega
    · by_cases hrv : rv ≤ v
      · simp only [subKey, hb, if_pos hrv, List.map_cons, List.sum_cons]
        rw [hsplit, ← ih htail, hb]
        simp only [Option.getD_some]
        omega
      · simp only [subKey, hb, if_neg hrv]
        rw [hsplit, ← ih htail, hb]
        simp only [Option.getD_some]
        omega

/-- The core of C8: the multiset difference is empty exactly when no
letter count on the left exceeds the one on the right. -/
theorem is_empty_sub_iff {c : Counter} (hc : SortedKeys c.inner) (d : Counter) :
    (c.sub d).is_empty = true ↔ ∀ l, c.get l ≤ d.get l := by
  rw [Counter.is_empty, decide_eq_true_eq]
  exact sum_subKey_eq_zero_iff hc d.inner

theorem map_fst_popKey (l : List (Nat × Nat)) (k : Nat) :
    (popKey l k).map Prod.fst = l.map Prod.fst := by
  induction l with
  | nil => rfl
  | cons p t ih =>
    obtain ⟨k', v⟩ := p
    by_cases hk : k = k' <;> simp [popKey, hk, ih]

theorem sortedKeys_popKey {l : List (Nat × Nat)} (h : SortedKeys l) (k : Nat) :
    SortedKeys (popKey l k) := by
  have h1 : ((popKey l k).map Prod.fst).Pairwise (· < ·) := by
    rw [map_fst_popKey]
    rw [SortedKeys] at h
    exact (List.pairwise_map).mpr h
  rw [SortedKeys]
  exact (List.pairwise_map).mp h1

theorem lookupKey_popKey (l : List (Nat × Nat)) (k j : Nat) :
    lookupKey (popKey l k) j =
      if j = k then (lookupKey l k).map (fun v => v - 1) else lookupKey l j := by
  induction l with
  | nil => by_cases hj : j = k <;> simp [popKey, lookupKey, hj]
  | cons p t ih =>
    obtain ⟨k', v⟩ := p
    by_cases hk : k = k'
    · subst hk
      by_cases hj : j = k
      · subst hj
        simp [popKey, lookupKey]
      · simp [popKey, lookupKey, hj]
    · by_cases hj : j = k'
      · subst hj
        have : j ≠ k := fun hc => hk hc.symm
        simp [popKey, if_neg hk, lookupKey, this]
      · simp [popKey, if_neg hk, lookupKey, hj, ih]

theorem pop_one_isSome_iff (c : Counter) (k : Nat) :
    (c.pop_one k).isSome = true ↔ 1 ≤ c.get k := by
  rw [Counter.pop_one]
  rcases hv : lookupKey c.inner k with _ | v
  · simp [Counter.get, hv]
  · by_cases h1 : v < 1
    · simp only [h1, if_pos h1, Counter.get, hv]
      simp
      omega
    · simp only [if_neg h1, Counter.get, hv]
      simp
      omega

theorem pop_one_eq_some {c c' : Counter} {k : Nat} (h : c.pop_one k = some c') :
    c'.inner = popKey c.inner k := by
  rw [Counter.pop_one] at h
  rcases hv : lookupKey c.inner k with _ | v
  · rw [hv] at h
    simp at h
  · rw [hv] at h
    by_cases h1 : v < 1
    · simp [h1] at h
    · simp [h1] at h
      exact (congrArg Counter.inner h.symm)

theorem get_pop_one {c c' : Counter} {k : Nat} (h : c.pop_one k = some c') (j : Nat) :
    c'.get j = c.get j - (if j = k then 1 else 0) := by
  have hinner := pop_one_eq_some h
  rw [Counter.get, hinner, lookupKey_popKey]
  by_cases hj : j = k
  · subst hj
    have h1 : 1 ≤ c.get j := by
      rw [← pop_one_isSome_iff, h]
      rfl
    rcases hv : lookupKey c.inner j with _ | v
    · rw [Counter.get, hv] at h1
      simp at h1
    · rw [Counter.get, hv]
      simp
  · simp [hj, Counter.get]

theorem sortedKeys_pop_one {c c' : Counter} {k : Nat} (hc : SortedKeys c.inner)
    (h : c.pop_one k = some c') : SortedKeys c'.inner := by
  rw [pop_one_eq_some h]
  exact sortedKeys_popKey hc k

theorem map_fst_pop_one {c c' : Counter} {k : Nat} (h : c.pop_one k = some c') :
    c'.inner.map Prod.fst = c.inner.map Prod.fst := by
  rw [pop_one_eq_some h]
  exact map_fst_popKey c.inner k

/-! ## Lemmas about the first (exact-match) pass -/

theorem matchCount_cons (a b : Nat) (s g : List Nat) (l : Nat) :
    matchCount (a :: s) (b :: g) l =
      matchCount s g l + (if a = b ∧ a = l then 1 else 0) := by
  rw [matchCount, List.zip_cons_cons, List.countP_cons, matchCount]
  by_cases h : a = b ∧ a = l <;> simp [h]

theorem count_cons_ite (a : Nat) (s : List Nat) (l : Nat) :
    (a :: s).count l = s.count l + (if a = l then 1 else 0) := by
  by_cases hl : a = l
  · subst hl
    simp [List.count_cons]
  · have h2 : ¬(l = a) := fun hx => hl hx.symm
    simp [List.count_cons, h2, hl]

theorem matchCount_le_count_left (s g : List Nat) (l : Nat) :
    matchCount s g l ≤ s.count l := by
  induction s generalizing g with
  | nil => simp [matchCount]
  | cons a s ih =>
    cases g with
    | nil => simp [matchCount]
    | cons b g =>
      rw [matchCount_cons, count_cons_ite]
      have := ih g
      by_cases h : a = b ∧ a = l
      · rw [if_pos h, if_pos h.2]
        omega
      · rw [if_neg h]
        by_cases hl : a = l
        · rw [if_pos hl]
          omega
        · rw [if_neg hl]
          omega

theorem matchCount_le_count_right (s g : List Nat) (l : Nat) :
    matchCount s g l ≤ g.count l := by
  induction s generalizing g with
  | nil => simp [matchCount]
  | cons a s ih =>
    cases g with
    | nil => simp [matchCount]
    | cons b g =>
      rw [matchCount_cons, count_cons_ite]
      have := ih g
      by_cases h : a = b ∧ a = l
      · obtain ⟨h1, h2⟩ := h
        have hbl : b = l := by omega
        rw [if_pos ⟨h1, h2⟩, if_pos hbl]
        omega
      · rw [if_neg h]
        by_cases hbl : b = l
        · rw [if_pos hbl]
          omega
        · rw [if_neg hbl]
          omega

/-- The first pass succeeds whenever the counter holds at least as many
of every letter as there are exact matches — so all `pop_one` calls
succeed. -/
theorem firstPass_isSome {s : List Nat} :
    ∀ {g : List Nat} {c : Counter}, (∀ l, matchCount s g l ≤ c.get l) →
      (firstPass s g c).isSome = true := by
  induction s with
  | nil => intro g c _; cases g <;> simp [firstPass]
  | cons a s ih =>
    intro g c h
    cases g with
    | nil => simp [firstPass]
    | cons b g =>
      by_cases hab : a = b
      · subst hab
        have hpop : 1 ≤ c.get a := by
          have := h a
          rw [matchCount_cons, if_pos ⟨rfl, rfl⟩] at this
          omega
        rcases hc1 : c.pop_one a with _ | c1
        · rw [← pop_one_isSome_iff, hc1] at hpop
          simp at hpop
        · have hrec : (firstPass s g c1).isSome = true := by
          -- counts after the pop still dominate the remaining matches
            apply ih
            intro l
            have := h l
            rw [matchCount_cons] at this
            have hg := get_pop_one hc1 l
            by_cases hl : l = a
            · subst hl
              simp at hg
              rw [if_pos ⟨rfl, rfl⟩] at this
              omega
            · rw [if_neg hl] at hg
              have hcond : ¬(a = a ∧ a = l) := fun hc => hl (hc.2.symm)
              rw [if_neg hcond] at this
              omega
          rcases hfp : firstPass s g c1 with _ | x
          · rw [hfp] at hrec
            simp at hrec
          · obtain ⟨r, c2⟩ := x
            simp [firstPass, hc1, hfp]
      · have hrec : (firstPass s g c).isSome = true := by
          apply ih
          intro l
          have := h l
          rw [matchCount_cons] at this
          have hcond : ¬(a = b ∧ a = l) := fun hc => hab hc.1
          rw [if_neg hcond] at this
          omega
        rcases hfp : firstPass s g c with _ | x
        · rw [hfp] at hrec
          simp at hrec
        · obtain ⟨r, c2⟩ := x
          simp [firstPass, hab, hfp]

/-- On success, the first pass returns exactly the green/grey marking of
the exact matches, and decrements each letter's shared count by its
number of exact matches, keeping the key set and well-formedness. -/
theorem firstPass_eq_some {s : List Nat} :
    ∀ {g : List Nat} {c c' : Counter} {r : List LettFb},
      firstPass s g c = some (r, c') →
      r = List.zipWith (fun a b => if a = b then LettFb.Green else LettFb.Grey) s g ∧
      (∀ l, c'.get l = c.get l - matchCount s g l) ∧
      c'.inner.map Prod.fst = c.inner.map Prod.fst ∧
      (SortedKeys c.inner → SortedKeys c'.inner) := by
  induction s with
  | nil =>
    intro g c c' r h
    cases g <;>
      · simp only [firstPass, Option.some_inj, Prod.mk.injEq] at h
        obtain ⟨hr, hc⟩ := h
        subst hr; subst hc
        refine ⟨by simp, fun l => by simp [matchCount], rfl, fun hs => hs⟩
  | cons a s ih =>
    intro g c c' r h
    cases g with
    | nil =>
      simp only [firstPass, Option.some_inj, Prod.mk.injEq] at h
      obtain ⟨hr, hc⟩ := h
      subst hr; subst hc
      refine ⟨by simp, fun l => by simp [matchCount], rfl, fun hs => hs⟩
    | cons b g =>
      by_cases hab : a = b
      · subst hab
        rcases hc1 : c.pop_one a with _ | c1
        · rw [firstPass] at h
          simp [hc1] at h
        · rcases hfp : firstPass s g c1 with _ | x
          · rw [firstPass] at h
            simp [hc1, hfp] at h
          · obtain ⟨r1, c2⟩ := x
            rw [firstPass] at h
            simp [hc1, hfp] at h
            obtain ⟨hr, hc⟩ := h
            subst hr
            subst hc
            obtain ⟨ihr, ihget, ihkeys, ihsort⟩ := ih hfp
            refine ⟨by rw [ihr, List.zipWith_cons_cons, if_pos rfl], ?_, ?_, ?_⟩
            · intro l
              rw [ihget l, matchCount_cons]
              have hg := get_pop_one hc1 l
              by_cases hl : l = a
              · subst hl
                simp at hg
                rw [if_pos ⟨rfl, rfl⟩, hg]
                omega
              · rw [if_neg hl] at hg
                rw [if_neg (fun hc : a = a ∧ a = l => hl hc.2.symm), hg]
                omega
            · rw [ihkeys, map_fst_pop_one hc1]
            · intro hs
              exact ihsort (sortedKeys_pop_one hs hc1)
      · rw [firstPass] at h
        rw [if_neg hab] at h
        rcases hfp : firstPass s g c with _ | x
        · rw [hfp] at h
          exact absurd h (by simp)
        · obtain ⟨r1, c2⟩ := x
          rw [hfp] at h
          simp only [Option.some_inj, Prod.mk.injEq] at h
          obtain ⟨hr, hc⟩ := h
          subst hr
          subst hc
          obtain ⟨ihr, ihget, ihkeys, ihsort⟩ := ih hfp
          refine ⟨by rw [ihr, List.zipWith_cons_cons, if_neg hab], ?_, ihkeys, ihsort⟩
          intro l
          rw [ihget l, matchCount_cons, if_neg (fun hc : a = b ∧ a = l => hab hc.1)]
          omega

/-! ## Lemmas about the second (present-elsewhere) pass -/

theorem yellowCount_cons (a : Nat) (f : LettFb) (g : List Nat) (r : List LettFb) (l : Nat) :
    yellowCount (a :: g) (f :: r) l =
      yellowCount g r l + (if a = l ∧ f = LettFb.Yellow then 1 else 0) := by
  rw [yellowCount, List.zip_cons_cons, List.countP_cons, yellowCount]
  by_cases h : a = l ∧ f = LettFb.Yellow <;> simp [h]

theorem greenCount_cons (a : Nat) (f : LettFb) (g : List Nat) (r : List LettFb) (l : Nat) :
    greenCount (a :: g) (f :: r) l =
      greenCount g r l + (if a = l ∧ f = LettFb.Green then 1 else 0) := by
  rw [greenCount, List.zip_cons_cons, List.countP_cons, greenCount]
  by_cases h : a = l ∧ f = LettFb.Green <;> simp [h]

theorem eligCount_cons (a : Nat) (f : LettFb) (g : List Nat) (r : List LettFb) (l : Nat) :
    eligCount (a :: g) (f :: r) l =
      eligCount g r l + (if a = l ∧ f ≠ LettFb.Green then 1 else 0) := by
  rw [eligCount, List.zip_cons_cons, List.countP_cons, eligCount]
  by_cases h : a = l ∧ f ≠ LettFb.Green <;> simp [h]

theorem specMarks_cons (a : Nat) (f : LettFb) (g : List Nat) (r : List LettFb) (l : Nat) :
    specMarks (a :: g) (f :: r) l =
      specMarks g r l + (if a = l ∧ f ≠ LettFb.Grey then 1 else 0) := by
  rw [specMarks, List.zip_cons_cons, List.countP_cons, specMarks]
  by_cases h : a = l ∧ f ≠ LettFb.Grey <;> simp [h]

theorem markYellow_nil_left (r : List LettFb) (lett cnt : Nat) :
    markYellow [] r lett cnt = r := by
  cases r <;> rfl

theorem length_markYellow (g : List Nat) (r : List LettFb) (lett cnt : Nat) :
    (markYellow g r lett cnt).length = r.length := by
  induction g generalizing r cnt with
  | nil => rw [markYellow_nil_left]
  | cons a g ih =>
    cases r with
    | nil => rfl
    | cons f r =>
      rw [markYellow]
      by_cases h : cnt ≠ 0 ∧ a = lett ∧ f ≠ LettFb.Green
      · rw [if_pos h]
        simp [ih]
      · rw [if_neg h]
        simp [ih]

theorem greenCount_markYellow (g : List Nat) (r : List LettFb) (lett cnt l : Nat) :
    greenCount g (markYellow g r lett cnt) l = greenCount g r l := by
  induction g generalizing r cnt with
  | nil => rw [markYellow_nil_left]
  | cons a g ih =>
    cases r with
    | nil => rfl
    | cons f r =>
      rw [markYellow]
      by_cases h : cnt ≠ 0 ∧ a = lett ∧ f ≠ LettFb.Green
      · rw [if_pos h, greenCount_cons, greenCount_cons, ih]
        have h1 : ¬(a = l ∧ LettFb.Yellow = LettFb.Green) := fun hc => by
          exact absurd hc.2 (by simp)
        have h2 : ¬(a = l ∧ f = LettFb.Green) := fun hc => h.2.2 hc.2
        rw [if_neg h1, if_neg h2]
      · rw [if_neg h, greenCount_cons, greenCount_cons, ih]

theorem yellowCount_markYellow_ne (g : List Nat) (r : List LettFb) (lett cnt l : Nat)
    (hl : l ≠ lett) :
    yellowCount g (markYellow g r lett cnt) l = yellowCount g r l := by
  induction g generalizing r cnt with
  | nil => rw [markYellow_nil_left]
  | cons a g ih =>
    cases r with
    | nil => rfl
    | cons f r =>
      rw [markYellow]
      by_cases h : cnt ≠ 0 ∧ a = lett ∧ f ≠ LettFb.Green
      · rw [if_pos h, yellowCount_cons, yellowCount_cons, ih]
        have hal : ¬(a = l) := fun hc => hl (hc ▸ h.2.1)
        rw [if_neg (fun hc => hal hc.1), if_neg (fun hc => hal hc.1)]
      · rw [if_neg h, yellowCount_cons, yellowCount_cons, ih]

theorem eligCount_markYellow_ne (g : List Nat) (r : List LettFb) (lett cnt l : Nat)
    (hl : l ≠ lett) :
    eligCount g (markYellow g r lett cnt) l = eligCount g r l := by
  induction g generalizing r cnt with
  | nil => rw [markYellow_nil_left]
  | cons a g ih =>
    cases r with
    | nil => rfl
    | cons f r =>
      rw [markYellow]
      by_cases h : cnt ≠ 0 ∧ a = lett ∧ f ≠ LettFb.Green
      · rw [if_pos h, eligCount_cons, eligCount_cons, ih]
        have hal : ¬(a = l) := fun hc => hl (hc ▸ h.2.1)
        rw [if_neg (fun hc => hal hc.1), if_neg (fun hc => hal hc.1)]
      · rw [if_neg h, eligCount_cons, eligCount_cons, ih]

/-- The second pass marks exactly `min cnt (eligible positions)` yellows
for the letter it processes, provided none were marked for it yet. -/
theorem yellowCount_markYellow_self (g : List Nat) (r : List LettFb) (lett cnt : Nat)
    (h0 : yellowCount g r lett = 0) :
    yellowCount g (markYellow g r lett cnt) lett = min cnt (eligCount g r lett) := by
  induction g generalizing r cnt with
  | nil =>
    rw [markYellow_nil_left]
    cases r <;> simp [yellowCount, eligCount]
  | cons a g ih =>
    cases r with
    | nil => simp [markYellow, yellowCount, eligCount]
    | cons f r =>
      rw [yellowCount_cons] at h0
      have h0t : yellowCount g r lett = 0 := by omega
      have h0h : ¬(a = lett ∧ f = LettFb.Yellow) := by
        by_cases hc : a = lett ∧ f = LettFb.Yellow
        · rw [if_pos hc] at h0
          omega
        · exact hc
      rw [markYellow]
      by_cases h : cnt ≠ 0 ∧ a = lett ∧ f ≠ LettFb.Green
      · rw [if_pos h, yellowCount_cons, eligCount_cons,
          if_pos ⟨h.2.1, rfl⟩, if_pos ⟨h.2.1, h.2.2⟩, ih r (cnt - 1) h0t]
        have hcnt : cnt ≠ 0 := h.1
        omega
      · rw [if_neg h, yellowCount_cons, eligCount_cons, ih r cnt h0t]
        rw [if_neg h0h]
        by_cases hcnt : cnt = 0
        · subst hcnt
          by_cases he : a = lett ∧ f ≠ LettFb.Green
          · rw [if_pos he]
            omega
          · rw [if_neg he]
            omega
        · have he : ¬(a = lett ∧ f ≠ LettFb.Green) := fun hc => h ⟨hcnt, hc.1, hc.2⟩
          rw [if_neg he]
          omega

theorem getD_markYellow (g : List Nat) (r : List LettFb) (lett cnt i : Nat) :
    (markYellow g r lett cnt).getD i LettFb.Grey = r.getD i LettFb.Grey ∨
      ((markYellow g r lett cnt).getD i LettFb.Grey = LettFb.Yellow ∧
        r.getD i LettFb.Grey ≠ LettFb.Green) := by
  induction g generalizing r cnt i with
  | nil =>
    rw [markYellow_nil_left]
    exact Or.inl rfl
  | cons a g ih =>
    cases r with
    | nil => exact Or.inl rfl
    | cons f r =>
      rw [markYellow]
      by_cases h : cnt ≠ 0 ∧ a = lett ∧ f ≠ LettFb.Green
      · rw [if_pos h]
        cases i with
        | zero => exact Or.inr ⟨rfl, h.2.2⟩
        | succ i =>
          simp only [List.getD_cons_succ]
          exact ih r (cnt - 1) i
      · rw [if_neg h]
        cases i with
        | zero => exact Or.inl rfl
        | succ i =>
          simp only [List.getD_cons_succ]
          exact ih r cnt i

theorem length_secondPass (g : List Nat) (entries : List (Nat × Nat)) (r : List LettFb) :
    (secondPass g entries r).length = r.length := by
  induction entries generalizing r with
  | nil => rfl
  | cons p rest ih =>
    obtain ⟨k, v⟩ := p
    rw [secondPass, ih, length_markYellow]

theorem greenCount_secondPass (g : List Nat) (entries : List (Nat × Nat))
    (r : List LettFb) (l : Nat) :
    greenCount g (secondPass g entries r) l = greenCount g r l := by
  induction entries generalizing r with
  | nil => rfl
  | cons p rest ih =>
    obtain ⟨k, v⟩ := p
    rw [secondPass, ih, greenCount_markYellow]

theorem getD_secondPass (g : List Nat) (entries : List (Nat × Nat)) (r : List LettFb)
    (i : Nat) :
    (secondPass g entries r).getD i LettFb.Grey = r.getD i LettFb.Grey ∨
      ((secondPass g entries r).getD i LettFb.Grey = LettFb.Yellow ∧
        r.getD i LettFb.Grey ≠ LettFb.Green) := by
  induction entries generalizing r with
  | nil => exact Or.inl rfl
  | cons p rest ih =>
    obtain ⟨k, v⟩ := p
    rw [secondPass]
    rcases ih (markYellow g r k v) with h1 | h1
    · rcases getD_markYellow g r k v i with h2 | h2
      · exact Or.inl (h1.trans h2)
      · exact Or.inr ⟨h1.trans h2.1, h2.2⟩
    · rcases getD_markYellow g r k v i with h2 | h2
      · exact Or.inr ⟨h1.1, h2 ▸ h1.2⟩
      · exact Or.inr ⟨h1.1, h2.2⟩

/-- Processing the remaining shared-count entries marks, for each entry
`(l, v)`, exactly `min v (eligible positions of l)` yellows, and leaves
every other letter untouched. -/
theorem yellowCount_secondPass (g : List Nat) (entries : List (Nat × Nat)) :
    ∀ (r : List LettFb), SortedKeys entries →
      (∀ p ∈ entries, yellowCount g r p.1 = 0) → ∀ l,
      yellowCount g (secondPass g entries r) l =
        match lookupKey entries l with
        | some v => min v (eligCount g r l)
        | none => yellowCount g r l := by
  induction entries with
  | nil =>
    intro r _ _ l
    rfl
  | cons p rest ih =>
    intro r hsort hinv l
    obtain ⟨k, v⟩ := p
    rw [SortedKeys, List.pairwise_cons] at hsort
    obtain ⟨hhead, htail⟩ := hsort
    have hinv' : ∀ q ∈ rest, yellowCount g (markYellow g r k v) q.1 = 0 := by
      intro q hq
      have hne : q.1 ≠ k := by
        have := hhead q hq
        omega
      rw [yellowCount_markYellow_ne g r k v q.1 hne]
      exact hinv q (List.mem_cons_of_mem _ hq)
    rw [secondPass, ih (markYellow g r k v) htail hinv' l]
    by_cases hl : l = k
    · subst hl
      have hrest : lookupKey rest l = none := by
        apply lookupKey_eq_none_of_forall_lt
        intro q hq
        exact hhead q hq
      rw [hrest]
      simp only [lookupKey, if_pos rfl]
      exact yellowCount_markYellow_self g r l v (hinv (l, v) (by simp))
    · simp only [lookupKey, if_neg hl]
      rcases hrest : lookupKey rest l with _ | v'
      · simp only
        exact yellowCount_markYellow_ne g r k v l hl
      · simp only
        rw [eligCount_markYellow_ne g r k v l hl]

/-! ## The marking produced by the first pass, and the master
characterization of `get_feedback`. -/

theorem yellowCount_zipWith_mark (s g : List Nat) (l : Nat) :
    yellowCount g
      (List.zipWith (fun a b => if a = b then LettFb.Green else LettFb.Grey) s g) l = 0 := by
  induction s generalizing g with
  | nil => simp [yellowCount]
  | cons a s ih =>
    cases g with
    | nil => simp [yellowCount]
    | cons b g =>
      rw [List.zipWith_cons_cons, yellowCount_cons, ih]
      have : ¬(b = l ∧ (if a = b then LettFb.Green else LettFb.Grey) = LettFb.Yellow) := by
        intro hc
        by_cases hab : a = b
        · rw [if_pos hab] at hc
          exact absurd hc.2 (by simp)
        · rw [if_neg hab] at hc
          exact absurd hc.2 (by simp)
      rw [if_neg this]

theorem greenCount_zipWith_mark (s g : List Nat) (l : Nat) :
    greenCount g
      (List.zipWith (fun a b => if a = b then LettFb.Green else LettFb.Grey) s g) l =
      matchCount s g l := by
  induction s generalizing g with
  | nil => simp [greenCount, matchCount]
  | cons a s ih =>
    cases g with
    | nil => simp [greenCount, matchCount]
    | cons b g =>
      rw [List.zipWith_cons_cons, greenCount_cons, ih, matchCount_cons]
      by_cases hab : a = b
      · subst hab
        rw [if_pos rfl]
        by_cases hl : a = l
        · rw [if_pos ⟨hl, rfl⟩, if_pos ⟨rfl, hl⟩]
        · rw [if_neg (fun hc => hl hc.1), if_neg (fun hc => hl hc.2)]
      · rw [if_neg hab]
        have h1 : ¬(b = l ∧ LettFb.Grey = LettFb.Green) := fun hc => by
          exact absurd hc.2 (by simp)
        rw [if_neg h1, if_neg (fun hc => hab hc.1)]

theorem eligCount_zipWith_mark {s g : List Nat} (hlen : s.length = g.length) (l : Nat) :
    eligCount g
      (List.zipWith (fun a b => if a = b then LettFb.Green else LettFb.Grey) s g) l =
      g.count l - matchCount s g l := by
  induction s generalizing g with
  | nil =>
    cases g with
    | nil => simp [eligCount, matchCount]
    | cons b g => simp at hlen
  | cons a s ih =>
    cases g with
    | nil => simp at hlen
    | cons b g =>
      have hlen' : s.length = g.length := by
        simp at hlen
        omega
      rw [List.zipWith_cons_cons, eligCount_cons, ih hlen', matchCount_cons,
        count_cons_ite]
      have hmle := matchCount_le_count_right s g l
      by_cases hab : a = b
      · rw [if_pos hab]
        rw [if_neg (show ¬(b = l ∧ (LettFb.Green : LettFb) ≠ LettFb.Green) from
          fun hc => hc.2 rfl)]
        by_cases hl : a = l
        · have hbl : b = l := by omega
          rw [if_pos (show a = b ∧ a = l from ⟨hab, hl⟩), if_pos hbl]
          omega
        · have hbl : ¬(b = l) := by omega
          rw [if_neg (show ¬(a = b ∧ a = l) from fun hc => hl hc.2), if_neg hbl]
          omega
      · rw [if_neg hab]
        rw [if_neg (show ¬(a = b ∧ a = l) from fun hc => hab hc.1)]
        by_cases hl : b = l
        · rw [if_pos (show b = l ∧ (LettFb.Grey : LettFb) ≠ LettFb.Green from
            ⟨hl, by simp⟩), if_pos hl]
          omega
        · rw [if_neg (show ¬(b = l ∧ (LettFb.Grey : LettFb) ≠ LettFb.Green) from
            fun hc => hl hc.1), if_neg hl]
          omega

theorem getD_zipWith_mark {s g : List Nat} (hlen : s.length = g.length) :
    ∀ i, i < g.length →
      (List.zipWith (fun a b => if a = b then LettFb.Green else LettFb.Grey) s g).getD i
          LettFb.Grey =
        if s.getD i 0 = g.getD i 0 then LettFb.Green else LettFb.Grey := by
  induction s generalizing g with
  | nil =>
    cases g with
    | nil => intro i hi; simp at hi
    | cons b g => simp at hlen
  | cons a s ih =>
    cases g with
    | nil => simp at hlen
    | cons b g =>
      have hlen' : s.length = g.length := by
        simp at hlen
        omega
      intro i hi
      cases i with
      | zero => simp
      | succ i =>
        rw [List.zipWith_cons_cons]
        simp only [List.getD_cons_succ]
        exact ih hlen' i (by simp at hi; omega)

theorem specMarks_eq_yellow_add_green (g : List Nat) (fb : List LettFb) (l : Nat) :
    specMarks g fb l = yellowCount g fb l + greenCount g fb l := by
  induction g generalizing fb with
  | nil => simp [specMarks, yellowCount, greenCount]
  | cons a g ih =>
    cases fb with
    | nil => simp [specMarks, yellowCount, greenCount]
    | cons f fb =>
      rw [specMarks_cons, yellowCount_cons, greenCount_cons, ih]
      cases f <;> by_cases hl : a = l <;> simp [hl] <;> omega

theorem specMarks_add_greys (g : List Nat) (fb : List LettFb) (l : Nat)
    (hlen : fb.length = g.length) :
    specMarks g fb l +
      (g.zip fb).countP (fun p => decide (p.1 = l ∧ p.2 = LettFb.Grey)) = g.count l := by
  induction g generalizing fb with
  | nil => simp [specMarks]
  | cons a g ih =>
    cases fb with
    | nil => simp at hlen
    | cons f fb =>
      have hlen' : fb.length = g.length := by
        simp at hlen
        omega
      rw [specMarks_cons, List.zip_cons_cons, List.countP_cons, count_cons_ite,
        ← ih fb hlen']
      cases f <;> by_cases hl : a = l <;> simp [hl] <;> omega

/-- Master characterization of a successful feedback computation: the
greens are exactly the positional matches, yellows imply a mismatch, and
the per-letter green/yellow counts realize the shared-multiset bound. -/
theorem get_feedback_char {s g : List Nat} {fb : List LettFb}
    (hlen : s.length = g.length) (h : get_feedback s g = some fb) :
    fb.length = g.length ∧
    (∀ i, fb.getD i LettFb.Grey = LettFb.Green ↔
      (i < g.length ∧ s.getD i 0 = g.getD i 0)) ∧
    (∀ i, fb.getD i LettFb.Grey = LettFb.Yellow → s.getD i 0 ≠ g.getD i 0) ∧
    (∀ l, greenCount g fb l = matchCount s g l) ∧
    (∀ l, yellowCount g fb l = min (s.count l) (g.count l) - matchCount s g l) := by
  rw [get_feedback] at h
  rcases hfp : firstPass s g ((Counter.ofList s).inter (Counter.ofList g)) with _ | x
  · rw [hfp] at h
    simp at h
  · obtain ⟨r0, c'⟩ := x
    rw [hfp] at h
    simp only [Option.some_inj] at h
    subst h
    obtain ⟨hr0, hget, hkeys, hsort⟩ := firstPass_eq_some hfp
    subst hr0
    set r0 := List.zipWith (fun a b => if a = b then LettFb.Green else LettFb.Grey) s g
      with hr0def
    have hsortc : SortedKeys ((Counter.ofList s).inter (Counter.ofList g)).inner :=
      sortedKeys_interKey (sortedKeys_ofList s) _
    have hsort' : SortedKeys c'.inner := hsort hsortc
    have hgetc : ∀ l, ((Counter.ofList s).inter (Counter.ofList g)).get l =
        min (s.count l) (g.count l) := by
      intro l
      rw [get_inter (sortedKeys_ofList s), get_ofList, get_ofList]
    have hr0len : r0.length = g.length := by
      rw [hr0def, List.length_zipWith, hlen]
      simp
    have hfblen : (secondPass g c'.inner r0).length = g.length := by
      rw [length_secondPass, hr0len]
    refine ⟨hfblen, ?_, ?_, ?_, ?_⟩
    · intro i
      constructor
      · intro hg
        rcases getD_secondPass g c'.inner r0 i with h1 | h1
        · rw [hg] at h1
          by_cases hi : i < g.length
          · have := getD_zipWith_mark hlen i hi
            rw [← h1] at this
            refine ⟨hi, ?_⟩
            by_cases hc : s.getD i 0 = g.getD i 0
            · exact hc
            · rw [if_neg hc] at this
              exact absurd this (by simp)
          · have : r0.getD i LettFb.Grey = LettFb.Grey :=
              List.getD_eq_default _ _ (by omega)
            rw [← h1] at this
            exact absurd this (by simp)
        · rw [hg] at h1
          exact absurd h1.1 (by simp)
      · intro ⟨hi, hsg⟩
        have hr0i : r0.getD i LettFb.Grey = LettFb.Green := by
          rw [getD_zipWith_mark hlen i hi, if_pos hsg]
        rcases getD_secondPass g c'.inner r0 i with h1 | h1
        · rw [h1, hr0i]
        · exact absurd hr0i h1.2
    · intro i hy
      have hi : i < g.length := by
        by_contra hi
        have : (secondPass g c'.inner r0).getD i LettFb.Grey = LettFb.Grey :=
          List.getD_eq_default _ _ (by omega)
        rw [hy] at this
        exact absurd this (by simp)
      rcases getD_secondPass g c'.inner r0 i with h1 | h1
      · rw [hy] at h1
        have := getD_zipWith_mark hlen i hi
        rw [← h1] at this
        by_cases hc : s.getD i 0 = g.getD i 0
        · rw [if_pos hc] at this
          exact absurd this (by simp)
        · exact hc
      · have := getD_zipWith_mark hlen i hi
        by_cases hc : s.getD i 0 = g.getD i 0
        · rw [if_pos hc] at this
          exact absurd this h1.2
        · exact hc
    · intro l
      rw [greenCount_secondPass, greenCount_zipWith_mark]
    · intro l
      have hinv : ∀ p ∈ c'.inner, yellowCount g r0 p.1 = 0 := by
        intro p _
        exact yellowCount_zipWith_mark s g p.1
      rw [yellowCount_secondPass g c'.inner r0 hsort' hinv l]
      have hmles := matchCount_le_count_left s g l
      have hmleg := matchCount_le_count_right s g l
      rcases hlook : lookupKey c'.inner l with _ | v
      · simp only
        have hnone : lookupKey ((Counter.ofList s).inter (Counter.ofList g)).inner l
            = none := by
          rcases hlc : lookupKey ((Counter.ofList s).inter (Counter.ofList g)).inner l
            with _ | u
          · rfl
          · exfalso
            have hmem : l ∈ ((Counter.ofList s).inter (Counter.ofList g)).inner.map
                Prod.fst := by
              rw [← lookupKey_isSome_iff, hlc]
              rfl
            rw [← hkeys, ← lookupKey_isSome_iff, hlook] at hmem
            simp at hmem
        have : min (s.count l) (g.count l) = 0 := by
          have := hgetc l
          rw [Counter.get, hnone] at this
          simp at this
          omega
        rw [yellowCount_zipWith_mark]
        omega
      · simp only
        have hv : v = min (s.count l) (g.count l) - matchCount s g l := by
          have h1 := hget l
          rw [hgetc l, Counter.get, hlook] at h1
          simp at h1
          omega
        rw [eligCount_zipWith_mark hlen, hv]
        rcases Nat.le_total (List.count l s) (List.count l g) with hcs | hcs
        · rw [min_eq_left hcs]
          have hle2 : List.count l s - matchCount s g l ≤
              List.count l g - matchCount s g l := by omega
          rw [min_eq_left hle2]
        · rw [min_eq_right hcs, min_self]

/-! ## Lemmas about the constraint structures of `reduce_dict` -/

theorem foldl_correct_step_sorted (zs : List (Nat × LettFb)) :
    ∀ c : Counter, SortedKeys c.inner →
      SortedKeys ((zs.foldl (fun c p =>
        match p.2 with
        | LettFb.Grey => c
        | LettFb.Yellow => c.add p.1
        | LettFb.Green => c.add p.1) c).inner) := by
  induction zs with
  | nil => intro c h; exact h
  | cons p rest ih =>
    intro c h
    obtain ⟨k, f⟩ := p
    cases f
    · exact ih c h
    · exact ih _ (sortedKeys_addKey h k)
    · exact ih _ (sortedKeys_addKey h k)

theorem foldl_correct_step_pos (zs : List (Nat × LettFb)) :
    ∀ c : Counter, (∀ p ∈ c.inner, 1 ≤ p.2) →
      ∀ p ∈ (zs.foldl (fun c p =>
        match p.2 with
        | LettFb.Grey => c
        | LettFb.Yellow => c.add p.1
        | LettFb.Green => c.add p.1) c).inner, 1 ≤ p.2 := by
  induction zs with
  | nil => intro c h; exact h
  | cons p rest ih =>
    intro c h
    obtain ⟨k, f⟩ := p
    cases f
    · exact ih c h
    · exact ih _ (mem_map_fst_addKey_values h)
    · exact ih _ (mem_map_fst_addKey_values h)

theorem foldl_correct_step_get (zs : List (Nat × LettFb)) :
    ∀ c : Counter, SortedKeys c.inner → ∀ l,
      (zs.foldl (fun c p =>
        match p.2 with
        | LettFb.Grey => c
        | LettFb.Yellow => c.add p.1
        | LettFb.Green => c.add p.1) c).get l =
        c.get l + zs.countP (fun p => decide (p.1 = l ∧ p.2 ≠ LettFb.Grey)) := by
  induction zs with
  | nil => intro c _ l; simp
  | cons p rest ih =>
    intro c h l
    obtain ⟨k, f⟩ := p
    rw [List.countP_cons]
    cases f
    · have := ih c h l
      simp only [List.foldl_cons]
      rw [this]
      simp
    · have := ih (c.add k) (sortedKeys_addKey h k) l
      simp only [List.foldl_cons]
      rw [this, get_add h]
      by_cases hk : k = l
      · subst hk
        simp
        omega
      · have hk2 : ¬(l = k) := fun hc => hk hc.symm
        simp [hk, hk2]
    · have := ih (c.add k) (sortedKeys_addKey h k) l
      simp only [List.foldl_cons]
      rw [this, get_add h]
      by_cases hk : k = l
      · subst hk
        simp
        omega
      · have hk2 : ¬(l = k) := fun hc => hk hc.symm
        simp [hk, hk2]

theorem sortedKeys_correct_lett_ctr (g : List Nat) (fb : List LettFb) :
    SortedKeys (correct_lett_ctr g fb).inner :=
  foldl_correct_step_sorted (g.zip fb) Counter.new (by simp [Counter.new, SortedKeys])

theorem valuesPos_correct_lett_ctr (g : List Nat) (fb : List LettFb) :
    ∀ p ∈ (correct_lett_ctr g fb).inner, 1 ≤ p.2 :=
  foldl_correct_step_pos (g.zip fb) Counter.new (by simp [Counter.new])

/-- `correct_lett_ctr` stores exactly the Exact+PresentElsewhere mark
counts. -/
theorem get_correct_lett_ctr (g : List Nat) (fb : List LettFb) (l : Nat) :
    (correct_lett_ctr g fb).get l = specMarks g fb l := by
  have := foldl_correct_step_get (g.zip fb) Counter.new
    (by simp [Counter.new, SortedKeys]) l
  rw [correct_lett_ctr, specMarks]
  simpa [Counter.new, Counter.get, lookupKey] using this

theorem mem_insertSet (x k : Nat) (s : List Nat) :
    x ∈ insertSet k s ↔ x = k ∨ x ∈ s := by
  induction s with
  | nil => simp [insertSet]
  | cons a t ih =>
    rw [insertSet]
    by_cases h1 : k < a
    · rw [if_pos h1]
      simp
    · rw [if_neg h1]
      by_cases h2 : k = a
      · subst h2
        rw [if_pos rfl]
        simp
      · rw [if_neg h2]
        simp [ih]
        tauto

theorem foldl_grey_mem (zs : List (Nat × LettFb)) :
    ∀ (s : List Nat) (x : Nat),
      x ∈ zs.foldl (fun s p =>
        match p.2 with
        | LettFb.Grey => insertSet p.1 s
        | _ => s) s ↔ x ∈ s ∨ (x, LettFb.Grey) ∈ zs := by
  induction zs with
  | nil => intro s x; simp
  | cons p rest ih =>
    intro s x
    obtain ⟨k, f⟩ := p
    rw [List.foldl_cons]
    cases f
    · have h1 := ih (insertSet k s) x
      dsimp only at h1 ⊢
      rw [h1, mem_insertSet]
      simp
      tauto
    · have h1 := ih s x
      dsimp only at h1 ⊢
      rw [h1]
      simp
    · have h1 := ih s x
      dsimp only at h1 ⊢
      rw [h1]
      simp

/-- A letter is in `marked_wrong_letts` exactly when it appears at some
`Grey` position. -/
theorem mem_marked_wrong_letts (g : List Nat) (fb : List LettFb) (x : Nat) :
    x ∈ marked_wrong_letts g fb ↔ (x, LettFb.Grey) ∈ g.zip fb := by
  rw [marked_wrong_letts, foldl_grey_mem]
  simp

/-- A letter is in the final forbidden set exactly when it is greyed
somewhere and carries no Exact/PresentElsewhere mark. -/
theorem mem_wrong_letts (g : List Nat) (fb : List LettFb) (x : Nat) :
    x ∈ wrong_letts g fb ↔ ((x, LettFb.Grey) ∈ g.zip fb ∧ specMarks g fb x = 0) := by
  rw [wrong_letts, List.mem_filter, mem_marked_wrong_letts]
  have hcont := contains_key_iff_get_pos (valuesPos_correct_lett_ctr g fb) x
  rw [get_correct_lett_ctr] at hcont
  constructor
  · intro ⟨h1, h2⟩
    refine ⟨h1, ?_⟩
    rw [Bool.not_eq_true'] at h2
    by_contra hms
    have : 1 ≤ specMarks g fb x := by omega
    rw [← hcont] at this
    rw [h2] at this
    exact absurd this (by simp)
  · intro ⟨h1, h2⟩
    refine ⟨h1, ?_⟩
    rw [Bool.not_eq_true']
    by_contra hc
    have : (correct_lett_ctr g fb).contains_key x = true := by
      rcases hb : (correct_lett_ctr g fb).contains_key x
      · exact absurd hb hc
      · rfl
    rw [hcont] at this
    omega

/-- Membership in an entry list with sorted keys coincides with lookup. -/
theorem mem_inner_iff_lookup {l : List (Nat × Nat)} (h : SortedKeys l) (k v : Nat) :
    (k, v) ∈ l ↔ lookupKey l k = some v := by
  constructor
  · intro hm
    induction l with
    | nil => simp at hm
    | cons p t ih =>
      obtain ⟨k', v'⟩ := p
      rw [SortedKeys, List.pairwise_cons] at h
      rcases List.mem_cons.mp hm with heq | hm'
      · obtain ⟨h1, h2⟩ := Prod.mk.injEq .. ▸ heq
        subst h1
        subst h2
        rw [lookupKey, if_pos rfl]
      · have hk : k ≠ k' := by
          have := h.1 (k, v) hm'
          omega
        rw [lookupKey, if_neg hk]
        exact ih (by rw [SortedKeys]; exact h.2) hm'
  · intro hl
    exact mem_of_lookupKey_eq_some hl

/-- Membership in `lett_limits`: a letter with both confirmed marks and
a grey occurrence, bounded by its mark count. -/
theorem mem_lett_limits (g : List Nat) (fb : List LettFb) (x v : Nat) :
    (x, v) ∈ lett_limits g fb ↔
      (specMarks g fb x = v ∧ 1 ≤ v ∧ (x, LettFb.Grey) ∈ g.zip fb) := by
  rw [lett_limits, List.mem_filter]
  rw [mem_inner_iff_lookup (sortedKeys_correct_lett_ctr g fb)]
  constructor
  · intro ⟨h1, h2⟩
    have hget : (correct_lett_ctr g fb).get x = v := by
      rw [Counter.get, h1]
      rfl
    have hpos : 1 ≤ v := valuesPos_correct_lett_ctr g fb (x, v)
      (mem_of_lookupKey_eq_some h1)
    rw [get_correct_lett_ctr] at hget
    refine ⟨hget, hpos, ?_⟩
    rw [← mem_marked_wrong_letts g fb x]
    simpa using h2
  · intro ⟨h1, h2, h3⟩
    constructor
    · have hget : (correct_lett_ctr g fb).get x = v := by
        rw [get_correct_lett_ctr]
        exact h1
      rcases hl : lookupKey (correct_lett_ctr g fb).inner x with _ | u
      · rw [Counter.get, hl] at hget
        simp at hget
        omega
      · rw [Counter.get, hl] at hget
        simp at hget
        rw [hget]
    · have : x ∈ marked_wrong_letts g fb := (mem_marked_wrong_letts g fb x).mpr h3
      simpa using this

theorem zip_getElem_of_lt (g : List Nat) (fb : List LettFb) (i : Nat)
    (hig : i < g.length) (hif : i < fb.length) :
    (g.zip fb)[i]? = some (g.getD i 0, fb.getD i LettFb.Grey) := by
  have h1 : g[i]? = some (g.getD i 0) := by
    rw [List.getD_eq_getElem?_getD, List.getElem?_eq_getElem hig]
    rfl
  have h2 : fb[i]? = some (fb.getD i LettFb.Grey) := by
    rw [List.getD_eq_getElem?_getD, List.getElem?_eq_getElem hif]
    rfl
  exact (List.getElem?_zip_eq_some).mpr ⟨h1, h2⟩

theorem zip_getElem_inv {g : List Nat} {fb : List LettFb} {i : Nat} {b : Nat}
    {f : LettFb} (h : (g.zip fb)[i]? = some (b, f)) :
    i < g.length ∧ i < fb.length ∧ g.getD i 0 = b ∧ fb.getD i LettFb.Grey = f := by
  obtain ⟨hg, hf⟩ := (List.getElem?_zip_eq_some).mp h
  obtain ⟨hig, hgv⟩ := List.getElem?_eq_some.mp hg
  obtain ⟨hif, hfv⟩ := List.getElem?_eq_some.mp hf
  refine ⟨hig, hif, ?_, ?_⟩
  · rw [List.getD_eq_getElem?_getD, hg]
    rfl
  · rw [List.getD_eq_getElem?_getD, hf]
    rfl

/-- Membership in `exact_letts`. -/
theorem mem_exact_letts (g : List Nat) (fb : List LettFb) (i a : Nat) :
    ((i, a) ∈ exact_letts g fb) ↔
      ((g.zip fb)[i]? = some (a, LettFb.Green)) := by
  rw [exact_letts, List.mem_filterMap]
  constructor
  · rintro ⟨⟨j, b, f⟩, hq, hpick⟩
    rw [List.mem_enum_iff_getElem?] at hq
    cases f
    · simp at hpick
    · simp at hpick
    · simp only [Option.some_inj, Prod.mk.injEq] at hpick
      obtain ⟨rfl, rfl⟩ := hpick
      exact hq
  · intro hq
    refine ⟨(i, (a, LettFb.Green)), ?_, rfl⟩
    rw [List.mem_enum_iff_getElem?]
    exact hq

/-- Membership in `wrong_locs`. -/
theorem mem_wrong_locs (g : List Nat) (fb : List LettFb) (i a : Nat) :
    ((i, a) ∈ wrong_locs g fb) ↔
      ((g.zip fb)[i]? = some (a, LettFb.Yellow)) := by
  rw [wrong_locs, List.mem_filterMap]
  constructor
  · rintro ⟨⟨j, b, f⟩, hq, hpick⟩
    rw [List.mem_enum_iff_getElem?] at hq
    cases f
    · simp at hpick
    · simp only [Option.some_inj, Prod.mk.injEq] at hpick
      obtain ⟨rfl, rfl⟩ := hpick
      exact hq
    · simp at hpick
  · intro hq
    refine ⟨(i, (a, LettFb.Yellow)), ?_, rfl⟩
    rw [List.mem_enum_iff_getElem?]
    exact hq

/-! ## The five survival conditions, code side vs. spec side -/

theorem exact_letts_all_iff (g : List Nat) (fb : List LettFb) (w : List Nat)
    (hlen : fb.length = g.length) :
    ((exact_letts g fb).all (fun p => w.getD p.1 0 == p.2) = true) ↔
      ∀ i, fb.getD i LettFb.Grey = LettFb.Green → w.getD i 0 = g.getD i 0 := by
  rw [List.all_eq_true]
  constructor
  · intro h i hfb
    have hif : i < fb.length := by
      by_contra hi
      rw [List.getD_eq_default _ _ (by omega)] at hfb
      exact absurd hfb (by simp)
    have hig : i < g.length := by omega
    have hmem : (i, g.getD i 0) ∈ exact_letts g fb := by
      rw [mem_exact_letts, zip_getElem_of_lt g fb i hig hif, hfb]
    have := h (i, g.getD i 0) hmem
    simpa using this
  · intro h p hp
    obtain ⟨i, a⟩ := p
    rw [mem_exact_letts] at hp
    obtain ⟨hig, hif, hga, hfb⟩ := zip_getElem_inv hp
    simp only [beq_iff_eq]
    exact (h i hfb).trans hga

theorem wrong_locs_any_iff (g : List Nat) (fb : List LettFb) (w : List Nat)
    (hlen : fb.length = g.length) :
    ((wrong_locs g fb).any (fun p => w.getD p.1 0 == p.2) = false) ↔
      ∀ i, fb.getD i LettFb.Grey = LettFb.Yellow → w.getD i 0 ≠ g.getD i 0 := by
  rw [List.any_eq_false]
  constructor
  · intro h i hfb hcontra
    have hif : i < fb.length := by
      by_contra hi
      rw [List.getD_eq_default _ _ (by omega)] at hfb
      exact absurd hfb (by simp)
    have hig : i < g.length := by omega
    have hmem : (i, g.getD i 0) ∈ wrong_locs g fb := by
      rw [mem_wrong_locs, zip_getElem_of_lt g fb i hig hif, hfb]
    have := h (i, g.getD i 0) hmem
    simp only [beq_iff_eq] at this
    exact this hcontra
  · intro h p hp
    obtain ⟨i, a⟩ := p
    rw [mem_wrong_locs] at hp
    obtain ⟨hig, hif, hga, hfb⟩ := zip_getElem_inv hp
    simp only [beq_iff_eq]
    exact fun hc => h i hfb (hc.trans hga.symm)

theorem wrong_letts_any_iff (g : List Nat) (fb : List LettFb) (w : List Nat) :
    ((Counter.ofList w).keys.any (fun k => (wrong_letts g fb).contains k) = false) ↔
      ∀ l, l ∈ w → ¬(specGreyed g fb l ∧ specMarks g fb l = 0) := by
  rw [List.any_eq_false]
  constructor
  · intro h l hlw hc
    have hk : l ∈ (Counter.ofList w).keys := (mem_keys_ofList w l).mpr hlw
    apply h l hk
    have hmem : l ∈ wrong_letts g fb := (mem_wrong_letts g fb l).mpr ⟨hc.1, hc.2⟩
    exact List.elem_iff.mpr hmem
  · intro h k hk hc
    have hkw : k ∈ w := (mem_keys_ofList w k).mp hk
    have hmem : k ∈ wrong_letts g fb := List.elem_iff.mp hc
    rw [mem_wrong_letts] at hmem
    exact h k hkw ⟨hmem.1, hmem.2⟩

theorem counts_sub_iff (g : List Nat) (fb : List LettFb) (w : List Nat) :
    (((correct_lett_ctr g fb).sub (Counter.ofList w)).is_empty = true) ↔
      ∀ l, specMarks g fb l ≤ w.count l := by
  rw [is_empty_sub_iff (sortedKeys_correct_lett_ctr g fb)]
  constructor
  · intro h l
    have := h l
    rw [get_correct_lett_ctr, get_ofList] at this
    exact this
  · intro h l
    rw [get_correct_lett_ctr, get_ofList]
    exact h l

theorem lett_limits_all_iff (g : List Nat) (fb : List LettFb) (w : List Nat) :
    ((lett_limits g fb).all
        (fun p => decide ((Counter.ofList w).get p.1 ≤ p.2)) = true) ↔
      ∀ l, 1 ≤ specMarks g fb l → specGreyed g fb l →
        w.count l ≤ specMarks g fb l := by
  rw [List.all_eq_true]
  constructor
  · intro h l h1 h2
    have hmem : (l, specMarks g fb l) ∈ lett_limits g fb := by
      rw [mem_lett_limits]
      exact ⟨rfl, h1, h2⟩
    have := h _ hmem
    simp only [decide_eq_true_eq] at this
    rw [get_ofList] at this
    exact this
  · intro h p hp
    obtain ⟨x, v⟩ := p
    rw [mem_lett_limits] at hp
    obtain ⟨h1, h2, h3⟩ := hp
    simp only [decide_eq_true_eq]
    rw [get_ofList, ← h1]
    exact h x (by omega) h3

/-- The filter predicate of `reduce_dict` is exactly the spec's survival
conditions. -/
theorem survives_iff_spec (g : List Nat) (fb : List LettFb) (w : List Nat)
    (hlen : fb.length = g.length) :
    survives g fb w = true ↔ specSurvives g fb w := by
  have hshow : survives g fb w =
      ((exact_letts g fb).all (fun p => w.getD p.1 0 == p.2) &&
       !((Counter.ofList w).keys.any (fun k => (wrong_letts g fb).contains k)) &&
       ((correct_lett_ctr g fb).sub (Counter.ofList w)).is_empty &&
       !((wrong_locs g fb).any (fun p => w.getD p.1 0 == p.2)) &&
       (lett_limits g fb).all (fun p => decide ((Counter.ofList w).get p.1 ≤ p.2))) :=
    rfl
  rw [hshow, specSurvives]
  simp only [Bool.and_eq_true, Bool.not_eq_true']
  rw [exact_letts_all_iff g fb w hlen, wrong_locs_any_iff g fb w hlen,
    wrong_letts_any_iff g fb w, counts_sub_iff g fb w, lett_limits_all_iff g fb w]
  tauto

/-- Membership in the reduced dictionary, characterized by the spec's
survival conditions. -/
theorem mem_reduce_dict_iff (dict : List (List Nat)) (g : List Nat) (fb : List LettFb)
    (w : List Nat) (hlen : fb.length = g.length) :
    w ∈ reduce_dict dict g fb ↔ (w ∈ dict ∧ specSurvives g fb w) := by
  rw [reduce_dict, List.mem_filter, survives_iff_spec g fb w hlen]

/-- The total Exact+PresentElsewhere mark count for each letter is
exactly the shared-multiset bound. -/
theorem specMarks_get_feedback {s g : List Nat} {fb : List LettFb}
    (hlen : s.length = g.length) (h : get_feedback s g = some fb) (l : Nat) :
    specMarks g fb l = min (s.count l) (g.count l) := by
  obtain ⟨_, _, _, hgc, hyc⟩ := get_feedback_char hlen h
  rw [specMarks_eq_yellow_add_green, hyc l, hgc l]
  have h1 := matchCount_le_count_left s g l
  have h2 := matchCount_le_count_right s g l
  rcases Nat.le_total (s.count l) (g.count l) with hc | hc
  · rw [min_eq_left hc]
    omega
  · rw [min_eq_right hc]
    omega

/-- The hypothetical secret always satisfies the survival conditions for
its own feedback. -/
theorem secret_specSurvives {s g : List Nat} {fb : List LettFb}
    (hlen : s.length = g.length) (h : get_feedback s g = some fb) :
    specSurvives g fb s := by
  obtain ⟨hfblen, hgreen, hyellow, hgc, hyc⟩ := get_feedback_char hlen h
  have hmarks := specMarks_get_feedback hlen h
  rw [specSurvives]
  refine ⟨?_, ?_, ?_, ?_, ?_⟩
  · intro i hfb
    exact ((hgreen i).mp hfb).2
  · intro l hls hc
    obtain ⟨hg, hm⟩ := hc
    have hlg : l ∈ g := (List.of_mem_zip hg).1
    have h1 : 1 ≤ s.count l := List.count_pos_iff.mpr hls
    have h2 : 1 ≤ g.count l := List.count_pos_iff.mpr hlg
    rw [hmarks l] at hm
    rcases Nat.le_total (s.count l) (g.count l) with hcc | hcc
    · rw [min_eq_left hcc] at hm
      omega
    · rw [min_eq_right hcc] at hm
      omega
  · intro l
    rw [hmarks l]
    rcases Nat.le_total (s.count l) (g.count l) with hcc | hcc
    · rw [min_eq_left hcc]
    · rw [min_eq_right hcc]
      exact hcc
  · intro i hfb
    exact hyellow i hfb
  · intro l h1 hg
    have hpart := specMarks_add_greys g fb l hfblen
    have hgreypos :
        0 < (g.zip fb).countP (fun p => decide (p.1 = l ∧ p.2 = LettFb.Grey)) := by
      rw [List.countP_pos_iff]
      exact ⟨(l, LettFb.Grey), hg, by simp⟩
    have hlt : specMarks g fb l < g.count l := by omega
    rw [hmarks l] at hlt ⊢
    rcases Nat.le_total (s.count l) (g.count l) with hcc | hcc
    · rw [min_eq_left hcc] at hlt ⊢
    · rw [min_eq_right hcc] at hlt
      omega

/-- `get_feedback` is total: the exact-match pass never pops an
exhausted letter (C4). -/
theorem get_feedback_isSome (s g : List Nat) : ∃ fb, get_feedback s g = some fb := by
  have hc : ∀ l, matchCount s g l ≤ ((Counter.ofList s).inter (Counter.ofList g)).get l := by
    intro l
    rw [get_inter (sortedKeys_ofList s), get_ofList, get_ofList]
    exact le_min (matchCount_le_count_left s g l) (matchCount_le_count_right s g l)
  have hsome := firstPass_isSome (s := s) (g := g) hc
  rcases hfp : firstPass s g ((Counter.ofList s).inter (Counter.ofList g)) with _ | x
  · rw [hfp] at hsome
    simp at hsome
  · obtain ⟨r, c⟩ := x
    refine ⟨secondPass g c.inner r, ?_⟩
    simp only [get_feedback, hfp]

/-! ## Lemmas about the expectation search -/

/-- The fold behind `min_by` returns the first element attaining the
minimal score: everything before it is strictly larger, everything in
the list is at least it. -/
theorem foldl_minBy_first (xs : List (ℚ × List Nat)) :
    ∀ x : ℚ × List Nat, ∃ l1 l2,
      x :: xs = l1 ++ (minByFirst x xs) :: l2 ∧
      (∀ p ∈ l1, (minByFirst x xs).1 < p.1) ∧
      (∀ p ∈ x :: xs, (minByFirst x xs).1 ≤ p.1) := by
  induction xs with
  | nil =>
    intro x
    refine ⟨[], [], by simp [minByFirst], by simp, ?_⟩
    intro p hp
    rcases List.mem_cons.mp hp with rfl | hp'
    · exact le_refl _
    · simp at hp'
  | cons y ys ih =>
    intro x
    have hstep : minByFirst x (y :: ys) = minByFirst (if y.1 < x.1 then y else x) ys :=
      rfl
    by_cases hxy : y.1 < x.1
    · rw [hstep, if_pos hxy]
      obtain ⟨l1, l2, heq, hlt, hle⟩ := ih y
      refine ⟨x :: l1, l2, ?_, ?_, ?_⟩
      · rw [List.cons_append, ← heq]
      · intro p hp
        rcases List.mem_cons.mp hp with rfl | hp'
        · exact lt_of_le_of_lt (hle y (by simp)) hxy
        · exact hlt p hp'
      · intro p hp
        rcases List.mem_cons.mp hp with rfl | hp'
        · exact le_of_lt (lt_of_le_of_lt (hle y (by simp)) hxy)
        · exact hle p hp'
    · rw [hstep, if_neg hxy]
      have hxye : x.1 ≤ y.1 := le_of_not_lt hxy
      obtain ⟨l1, l2, heq, hlt, hle⟩ := ih x
      cases l1 with
      | nil =>
        simp only [List.nil_append] at heq
        obtain ⟨hx, hys⟩ := List.cons.injEq .. ▸ heq
        refine ⟨[], y :: l2, ?_, by simp, ?_⟩
        · rw [List.nil_append, ← hx, ← hys]
        · intro p hp
          rcases List.mem_cons.mp hp with rfl | hp'
          · exact hle p (by simp)
          · rcases List.mem_cons.mp hp' with rfl | hp''
            · calc (minByFirst x ys).1 ≤ x.1 := hle x (by simp)
                _ ≤ p.1 := hxye
            · exact hle p (by simp [hp''])
      | cons a l1' =>
        rw [List.cons_append] at heq
        obtain ⟨hx, hys⟩ := List.cons.injEq .. ▸ heq
        refine ⟨x :: y :: l1', l2, ?_, ?_, ?_⟩
        · rw [List.cons_append, List.cons_append, ← hys]
        · intro p hp
          have hminx : (minByFirst x ys).1 < x.1 := by
            have := hlt a (by simp)
            rw [← hx] at this
            exact this
          rcases List.mem_cons.mp hp with rfl | hp'
          · exact hminx
          · rcases List.mem_cons.mp hp' with rfl | hp''
            · exact lt_of_lt_of_le hminx hxye
            · exact hlt p (List.mem_cons_of_mem _ hp'')
        · intro p hp
          rcases List.mem_cons.mp hp with rfl | hp'
          · exact hle p (by simp)
          · rcases List.mem_cons.mp hp' with rfl | hp''
            · exact le_trans (hle x (by simp)) hxye
            · exact hle p (by simp [hp''])

theorem zip_map_self (f : List Nat → ℚ) (l : List (List Nat)) :
    (l.map f).zip l = l.map (fun w => (f w, w)) := by
  induction l with
  | nil => rfl
  | cons a l ih => simp [ih]

theorem mem_map_pair {f : List Nat → ℚ} {l : List (List Nat)} {q : ℚ × List Nat}
    (h : q ∈ l.map (fun w => (f w, w))) : q.1 = f q.2 := by
  obtain ⟨w, _, hw⟩ := List.mem_map.mp h
  rw [← hw]

/-- `get_best_expect` on a non-empty pool returns the pool's first
minimal-score word together with its score. -/
theorem get_best_expect_spec (dict pool : List (List Nat)) (hne : pool ≠ []) :
    ∃ w e l1 l2, get_best_expect dict pool = some (w, e) ∧
      e = get_expect_remain_after dict w ∧
      pool = l1 ++ w :: l2 ∧
      (∀ v ∈ l1, e < get_expect_remain_after dict v) ∧
      (∀ v ∈ pool, e ≤ get_expect_remain_after dict v) := by
  cases pool with
  | nil => exact absurd rfl hne
  | cons p ps =>
    have hzip : ((p :: ps).map (fun w => get_expect_remain_after dict w)).zip (p :: ps)
        = (p :: ps).map (fun w => (get_expect_remain_after dict w, w)) :=
      zip_map_self _ _
    have hout : get_best_expect dict (p :: ps) =
        some ((minByFirst (get_expect_remain_after dict p, p)
            (ps.map (fun w => (get_expect_remain_after dict w, w)))).2,
          (minByFirst (get_expect_remain_after dict p, p)
            (ps.map (fun w => (get_expect_remain_after dict w, w)))).1) := by
      simp only [get_best_expect, List.map_cons, List.zip_cons_cons, zip_map_self]
    set xs := ps.map (fun w => (get_expect_remain_after dict w, w)) with hxs
    set x := (get_expect_remain_after dict p, p) with hx
    obtain ⟨l1, l2, heq, hlt, hle⟩ := foldl_minBy_first xs x
    have hconsmap : x :: xs = (p :: ps).map (fun w => (get_expect_remain_after dict w, w)) := by
      rw [List.map_cons, hx, hxs]
    have hrmem : minByFirst x xs ∈ x :: xs := by
      rw [heq]
      exact List.mem_append_right l1 (by simp)
    have hrpair : (minByFirst x xs).1 = get_expect_remain_after dict (minByFirst x xs).2 := by
      apply mem_map_pair
      rw [← hconsmap]
      exact hrmem
    refine ⟨(minByFirst x xs).2, (minByFirst x xs).1, l1.map Prod.snd, l2.map Prod.snd,
      hout, hrpair, ?_, ?_, ?_⟩
    · have hmapped := congrArg (List.map Prod.snd) heq
      rw [hconsmap, List.map_map] at hmapped
      have hid : List.map (Prod.snd ∘ fun w => (get_expect_remain_after dict w, w))
          (p :: ps) = p :: ps := by
        have hfun : (Prod.snd ∘ fun w : List Nat =>
            (get_expect_remain_after dict w, w)) = id := rfl
        rw [hfun, List.map_id]
      rw [hid, List.map_append, List.map_cons] at hmapped
      exact hmapped
    · intro v hv
      obtain ⟨q, hq, hq2⟩ := List.mem_map.mp hv
      have hq1 : q.1 = get_expect_remain_after dict q.2 := by
        apply mem_map_pair
        rw [← hconsmap, heq]
        exact List.mem_append_left _ hq
      rw [← hq2, ← hq1]
      exact hlt q hq
    · intro v hv
      have hvm : (get_expect_remain_after dict v, v) ∈ x :: xs := by
        rw [hconsmap]
        exact List.mem_map_of_mem _ hv
      exact hle _ hvm

/-! ## Idempotence of `reduce_dict` -/

theorem reduce_dict_idempotent_aux (dict : List (List Nat)) (g : List Nat)
    (fb : List LettFb) :
    reduce_dict (reduce_dict dict g fb) g fb = reduce_dict dict g fb := by
  rw [reduce_dict, reduce_dict, List.filter_filter]
  congr 1
  funext w
  rw [Bool.and_self]

/-! ## The subtract-1 membership bonus strictly lowers the score -/

theorem expect_bonus_lt_aux (dict : List (List Nat)) (guess : List Nat)
    (hne : dict ≠ []) (hmem : guess ∈ dict) :
    get_expect_remain_after dict guess < expect_remain_no_bonus dict guess := by
  have hlen : 0 < dict.length := List.length_pos.mpr hne
  have hq : (0 : ℚ) < (dict.length : ℚ) := by exact_mod_cast hlen
  have hnorm : (0 : ℚ) < 1 / (dict.length : ℚ) := div_pos one_pos hq
  simp only [get_expect_remain_after, expect_remain_no_bonus, if_pos hmem]
  apply mul_lt_mul_of_pos_left _ hnorm
  linarith

/-! ## Lemmas about the feedback decoder -/

theorem decodeChar_eq_some (c : Char) (f : LettFb) :
    decodeChar c = some f ↔
      ((c = '-' ∧ f = LettFb.Grey) ∨ (c = '+' ∧ f = LettFb.Yellow) ∨
       (c = '*' ∧ f = LettFb.Green)) := by
  constructor
  · intro h
    rw [decodeChar] at h
    by_cases h1 : c = '-'
    · rw [if_pos h1] at h
      exact Or.inl ⟨h1, (Option.some_inj.mp h).symm⟩
    · rw [if_neg h1] at h
      by_cases h2 : c = '+'
      · rw [if_pos h2] at h
        exact Or.inr (Or.inl ⟨h2, (Option.some_inj.mp h).symm⟩)
      · rw [if_neg h2] at h
        by_cases h3 : c = '*'
        · rw [if_pos h3] at h
          exact Or.inr (Or.inr ⟨h3, (Option.some_inj.mp h).symm⟩)
        · rw [if_neg h3] at h
          exact absurd h (by simp)
  · rintro (⟨rfl, rfl⟩ | ⟨rfl, rfl⟩ | ⟨rfl, rfl⟩) <;> rfl

/-- The character relation realized by a successful decode. -/
def decodeRel (c : Char) (f : LettFb) : Prop :=
  (c = '-' ∧ f = LettFb.Grey) ∨ (c = '+' ∧ f = LettFb.Yellow) ∨
    (c = '*' ∧ f = LettFb.Green)

theorem decodeChars_eq_some (s : List Char) :
    ∀ r : List LettFb, decodeChars s = some r ↔ List.Forall₂ decodeRel s r := by
  induction s with
  | nil =>
    intro r
    rw [decodeChars]
    constructor
    · intro h
      rw [← Option.some_inj.mp h]
      exact List.Forall₂.nil
    · intro h
      cases h
      rfl
  | cons c cs ih =>
    intro r
    rw [decodeChars]
    rcases hdc : decodeChar c with _ | f
    · simp only
      constructor
      · intro h
        exact absurd h (by simp)
      · intro h
        cases h with
        | cons hcf htail =>
          rw [decodeRel] at hcf
          have := (decodeChar_eq_some c _).mpr hcf
          rw [hdc] at this
          exact absurd this (by simp)
    · rcases hrest : decodeChars cs with _ | rs
      · simp only
        constructor
        · intro h
          exact absurd h (by simp)
        · intro h
          cases h with
          | cons hcf htail =>
            have := (ih _).mpr htail
            rw [hrest] at this
            exact absurd this (by simp)
      · simp only
        constructor
        · intro h
          rw [← Option.some_inj.mp h]
          exact List.Forall₂.cons ((decodeChar_eq_some c f).mp hdc)
            ((ih rs).mp hrest)
        · intro h
          cases h with
          | cons hcf htail =>
            have hf : decodeChar c = some _ := (decodeChar_eq_some c _).mpr hcf
            rw [hdc] at hf
            have hfe := Option.some_inj.mp hf
            have hrs := (ih _).mpr htail
            rw [hrest] at hrs
            have hrse := Option.some_inj.mp hrs
            rw [← hfe, ← hrse]

theorem read_feedback_eq_some (s : List Char) (r : List LettFb) :
    read_feedback s = some r ↔ (s.length = 5 ∧ List.Forall₂ decodeRel s r) := by
  rw [read_feedback]
  rcases hdc : decodeChars s with _ | r0
  · simp only
    constructor
    · intro h
      exact absurd h (by simp)
    · intro hc
      have := (decodeChars_eq_some s r).mpr hc.2
      rw [hdc] at this
      exact absurd this (by simp)
  · simp only
    by_cases hl : r0.length = 5
    · rw [if_pos hl]
      constructor
      · intro h
        have hr := Option.some_inj.mp h
        subst hr
        have hf : List.Forall₂ decodeRel s r0 := (decodeChars_eq_some s r0).mp hdc
        exact ⟨(List.Forall₂.length_eq hf).trans hl, hf⟩
      · intro hc
        have := (decodeChars_eq_some s r).mpr hc.2
        rw [hdc] at this
        rw [Option.some_inj.mp this]
    · rw [if_neg hl]
      constructor
      · intro h
        exact absurd h (by simp)
      · intro hc
        have := (decodeChars_eq_some s r).mpr hc.2
        rw [hdc] at this
        have hr := Option.some_inj.mp this
        subst hr
        exact absurd ((List.Forall₂.length_eq hc.2).symm.trans hc.1) hl

/-! ## The claims -/

/-- C1: for every candidate pool, guess and feedback of word length 5, a
word of the pool is in the output of the dictionary reducer iff all five
survival conditions hold: the word carries the required letter at every
Exact position, none of its letters is in the final forbidden set, the
multiset difference `correct_letter_counts - word counts` is empty, no
PresentElsewhere pair holds at its own index, and every letter with a
count upper bound stays within its bound. -/
theorem claim_C1_reduce_dict_survival
    (dict : List (List Nat)) (g w : List Nat) (fb : List LettFb)
    (hg : g.length = 5) (hfb : fb.length = 5) (hw : w.length = 5) :
    w ∈ reduce_dict dict g fb ↔ (w ∈ dict ∧ specSurvives g fb w) :=
  mem_reduce_dict_iff dict g fb w (by omega)

theorem claim_C1_witness :
    (([0, 1, 2, 3, 4] : List Nat).length = 5 ∧
      ([LettFb.Grey, LettFb.Grey, LettFb.Grey, LettFb.Grey, LettFb.Grey] :
        List LettFb).length = 5 ∧
      ([0, 0, 0, 0, 0] : List Nat).length = 5) ∧
    (([0, 0, 0, 0, 0] : List Nat) ∈
        reduce_dict [[0, 0, 0, 0, 0]] [0, 1, 2, 3, 4]
          [LettFb.Grey, LettFb.Grey, LettFb.Grey, LettFb.Grey, LettFb.Grey] ↔
      (([0, 0, 0, 0, 0] : List Nat) ∈ ([[0, 0, 0, 0, 0]] : List (List Nat)) ∧
        specSurvives [0, 1, 2, 3, 4]
          [LettFb.Grey, LettFb.Grey, LettFb.Grey, LettFb.Grey, LettFb.Grey]
          [0, 0, 0, 0, 0])) :=
  ⟨⟨by decide, by decide, by decide⟩,
    claim_C1_reduce_dict_survival [[0, 0, 0, 0, 0]] [0, 1, 2, 3, 4] [0, 0, 0, 0, 0]
      [LettFb.Grey, LettFb.Grey, LettFb.Grey, LettFb.Grey, LettFb.Grey]
      (by decide) (by decide) (by decide)⟩

/-- C2: reducing a pool by the feedback that one of its own members
would generate as the secret never removes that member. -/
theorem claim_C2_secret_never_removed
    (dict : List (List Nat)) (s g : List Nat) (fb : List LettFb)
    (hs : s.length = 5) (hg : g.length = 5) (hmem : s ∈ dict)
    (hfb : get_feedback s g = some fb) :
    s ∈ reduce_dict dict g fb := by
  have hlen : s.length = g.length := by omega
  have hfbl : fb.length = g.length := (get_feedback_char hlen hfb).1
  rw [mem_reduce_dict_iff dict g fb s hfbl]
  exact ⟨hmem, secret_specSurvives hlen hfb⟩

theorem claim_C2_witness :
    (([0, 0, 0, 0, 0] : List Nat).length = 5 ∧
      ([1, 1, 1, 1, 1] : List Nat).length = 5 ∧
      ([0, 0, 0, 0, 0] : List Nat) ∈ ([[0, 0, 0, 0, 0]] : List (List Nat)) ∧
      get_feedback [0, 0, 0, 0, 0] [1, 1, 1, 1, 1] =
        some [LettFb.Grey, LettFb.Grey, LettFb.Grey, LettFb.Grey, LettFb.Grey]) ∧
    ([0, 0, 0, 0, 0] : List Nat) ∈
      reduce_dict [[0, 0, 0, 0, 0]] [1, 1, 1, 1, 1]
        [LettFb.Grey, LettFb.Grey, LettFb.Grey, LettFb.Grey, LettFb.Grey] :=
  ⟨⟨by decide, by decide, by decide, by decide⟩,
    claim_C2_secret_never_removed [[0, 0, 0, 0, 0]] [0, 0, 0, 0, 0] [1, 1, 1, 1, 1]
      [LettFb.Grey, LettFb.Grey, LettFb.Grey, LettFb.Grey, LettFb.Grey]
      (by decide) (by decide) (by decide) (by decide)⟩

/-- C3: the number of Exact/PresentElsewhere marks whose guess letter is
`l` never exceeds the minimum of the occurrences of `l` in the secret
and in the guess. -/
theorem claim_C3_marks_bounded_by_min
    (s g : List Nat) (fb : List LettFb) (l : Nat)
    (hlen : s.length = g.length) (hfb : get_feedback s g = some fb) :
    specMarks g fb l ≤ min (s.count l) (g.count l) :=
  le_of_eq (specMarks_get_feedback hlen hfb l)

theorem claim_C3_witness :
    (([69, 82, 82, 79, 82] : List Nat).length = ([65, 82, 71, 79, 84] : List Nat).length ∧
      get_feedback [69, 82, 82, 79, 82] [65, 82, 71, 79, 84] =
        some [LettFb.Grey, LettFb.Green, LettFb.Grey, LettFb.Green, LettFb.Grey]) ∧
    specMarks [65, 82, 71, 79, 84]
        [LettFb.Grey, LettFb.Green, LettFb.Grey, LettFb.Green, LettFb.Grey] 82 ≤
      min (([69, 82, 82, 79, 82] : List Nat).count 82)
        (([65, 82, 71, 79, 84] : List Nat).count 82) :=
  ⟨⟨by decide, by decide⟩,
    claim_C3_marks_bounded_by_min [69, 82, 82, 79, 82] [65, 82, 71, 79, 84]
      [LettFb.Grey, LettFb.Green, LettFb.Grey, LettFb.Green, LettFb.Grey] 82
      (by decide) (by decide)⟩

/-- C4: for words of equal length, the first (exact-match) pass never
fails — every `pop_one` on the shared multiset succeeds, since an exact
match is itself a shared occurrence. -/
theorem claim_C4_first_pass_pops_succeed (s g : List Nat)
    (hlen : s.length = g.length) :
    (firstPass s g ((Counter.ofList s).inter (Counter.ofList g))).isSome = true := by
  apply firstPass_isSome
  intro l
  rw [get_inter (sortedKeys_ofList s), get_ofList, get_ofList]
  exact le_min (matchCount_le_count_left s g l) (matchCount_le_count_right s g l)

theorem claim_C4_witness :
    (([5, 6, 7, 8, 9] : List Nat).length = ([5, 5, 5, 5, 5] : List Nat).length) ∧
    (firstPass [5, 6, 7, 8, 9] [5, 5, 5, 5, 5]
      ((Counter.ofList [5, 6, 7, 8, 9]).inter
        (Counter.ofList [5, 5, 5, 5, 5]))).isSome = true :=
  ⟨by decide,
    claim_C4_first_pass_pops_succeed [5, 6, 7, 8, 9] [5, 5, 5, 5, 5] (by decide)⟩

/-- C5: on a non-empty pool, `get_best_expect` returns a guess whose
score is minimal over the pool, and ties are broken by encounter order:
every pool word strictly before the returned one scores strictly
higher. -/
theorem claim_C5_best_expect_stable_min (dict pool : List (List Nat))
    (hne : pool ≠ []) :
    ∃ w e l1 l2, get_best_expect dict pool = some (w, e) ∧
      e = get_expect_remain_after dict w ∧
      pool = l1 ++ w :: l2 ∧
      (∀ v ∈ l1, e < get_expect_remain_after dict v) ∧
      (∀ v ∈ pool, e ≤ get_expect_remain_after dict v) :=
  get_best_expect_spec dict pool hne

theorem claim_C5_witness :
    (([[0, 0, 0, 0, 0]] : List (List Nat)) ≠ []) ∧
    (∃ w e l1 l2,
      get_best_expect [[0, 0, 0, 0, 0]] [[0, 0, 0, 0, 0]] = some (w, e) ∧
      e = get_expect_remain_after [[0, 0, 0, 0, 0]] w ∧
      ([[0, 0, 0, 0, 0]] : List (List Nat)) = l1 ++ w :: l2 ∧
      (∀ v ∈ l1, e < get_expect_remain_after [[0, 0, 0, 0, 0]] v) ∧
      (∀ v ∈ ([[0, 0, 0, 0, 0]] : List (List Nat)),
        e ≤ get_expect_remain_after [[0, 0, 0, 0, 0]] v)) :=
  ⟨by decide,
    claim_C5_best_expect_stable_min [[0, 0, 0, 0, 0]] [[0, 0, 0, 0, 0]] (by decide)⟩

/-- C6 counterexample: for secret "ERROR" and guess "ARGOT", the guess
position holding the letter R (index 1) is NOT marked PresentElsewhere:
the R matches positionally, so it is marked Exact. -/
theorem claim_C6_counterexample :
    ¬(((get_feedback [69, 82, 82, 79, 82] [65, 82, 71, 79, 84]).getD []).getD 1
        LettFb.Grey = LettFb.Yellow) := by
  decide

/-- C6 amended: for secret "ERROR" and guess "ARGOT", the guess position
holding the letter R (index 1) is marked Exact — in particular not
Absent — because the single R of the guess coincides positionally with
an R of the secret. -/
theorem claim_C6_amended_exact_not_absent :
    ((get_feedback [69, 82, 82, 79, 82] [65, 82, 71, 79, 84]).getD []).getD 1
        LettFb.Grey = LettFb.Green ∧
    ((get_feedback [69, 82, 82, 79, 82] [65, 82, 71, 79, 84]).getD []).getD 1
        LettFb.Grey ≠ LettFb.Grey := by
  decide

/-- C7: applying the dictionary reducer a second time with the same
guess and feedback leaves the already-reduced pool unchanged. -/
theorem claim_C7_reduce_dict_idempotent (dict : List (List Nat)) (g : List Nat)
    (fb : List LettFb) :
    reduce_dict (reduce_dict dict g fb) g fb = reduce_dict dict g fb :=
  reduce_dict_idempotent_aux dict g fb

/-- C8: `A.subtract(B).is_empty()` holds iff every letter's count in `A`
is at most its count in `B`. -/
theorem claim_C8_subtract_empty_iff_le (A B : Counter) (hA : SortedKeys A.inner) :
    ((A.sub B).is_empty = true) ↔ ∀ l, A.get l ≤ B.get l :=
  is_empty_sub_iff hA B

theorem claim_C8_witness :
    SortedKeys (Counter.mk [(1, 2)]).inner ∧
    (((Counter.mk [(1, 2)]).sub (Counter.mk [(1, 3)])).is_empty = true ↔
      ∀ l, (Counter.mk [(1, 2)]).get l ≤ (Counter.mk [(1, 3)]).get l) :=
  ⟨by simp [SortedKeys],
    claim_C8_subtract_empty_iff_le (Counter.mk [(1, 2)]) (Counter.mk [(1, 3)])
      (by simp [SortedKeys])⟩

/-- C9: for a non-empty reference dictionary and a guess that is one of
its members, the score with the subtract-1 membership bonus is strictly
less than the same mean without the adjustment. -/
theorem claim_C9_bonus_strictly_lower (dict : List (List Nat)) (guess : List Nat)
    (hne : dict ≠ []) (hmem : guess ∈ dict) :
    get_expect_remain_after dict guess < expect_remain_no_bonus dict guess :=
  expect_bonus_lt_aux dict guess hne hmem

theorem claim_C9_witness :
    (([[0, 0, 0, 0, 0]] : List (List Nat)) ≠ [] ∧
      ([0, 0, 0, 0, 0] : List Nat) ∈ ([[0, 0, 0, 0, 0]] : List (List Nat))) ∧
    get_expect_remain_after [[0, 0, 0, 0, 0]] [0, 0, 0, 0, 0] <
      expect_remain_no_bonus [[0, 0, 0, 0, 0]] [0, 0, 0, 0, 0] :=
  ⟨⟨by decide, by decide⟩,
    claim_C9_bonus_strictly_lower [[0, 0, 0, 0, 0]] [0, 0, 0, 0, 0]
      (by decide) (by decide)⟩

/-- C10: the feedback decoder succeeds exactly on strings of five
characters drawn from `-`, `+`, `*`, decoding them 1:1 by position into
Absent, PresentElsewhere and Exact; any other character or a wrong
length yields a decode error. -/
theorem claim_C10_read_feedback_decodes (s : List Char) (r : List LettFb) :
    read_feedback s = some r ↔ (s.length = 5 ∧ List.Forall₂ decodeRel s r) :=
  read_feedback_eq_some s r

end WordleSolver
